import Mathlib

/-!
# jean-mathphy-lib: polynomial ring engine and interpolation layer

Shallow embedding of `src/numeric/Polynomial.hpp` and `src/numeric/Interpolators.hpp`,
and of the subtraction of `src/numeric/uint128_t.hpp` and `Det` of
`src/numeric/Matrices.hpp`.

* A `Polynomial<T>` is represented by its `Coefficients` vector, a `List α`
  (index `i` holds the coefficient of `x^i`).
* `std::vector::operator[]` performs no bounds check: an access outside
  `0 .. size()-1` (and `back()` on an empty vector) is undefined behaviour.
  Every routine that indexes a vector therefore returns an `Option`, and
  `none` stands for "an out-of-range element was accessed".
* `size_t` arithmetic is modelled in `Nat`; every subtraction in the source is
  guarded by its loop bound, so no wrap-around is involved.
* Scalars are an arbitrary type carrying the operations each routine uses.
  Value-initialisation `T()` and the literals `T(0.0)`, `T(1.0)` are `0` and `1`.
* Scalar division is the division of the scalar type. The general theorems about
  polynomial division assume a field and a normalized, non-empty divisor, under which
  the source never divides by zero; the concrete evaluations of the interpolation
  routines use pairwise distinct nodes and a query away from the nodes.
* `coeff` and `toPoly` belong to the specification side: `toPoly` maps a coefficient
  sequence to the Mathlib polynomial it denotes and is used in proofs only.
-/

namespace JeanMathPhy

universe u
variable {α : Type u}

/-! ## Polynomial.hpp -/

/-- Source `Polynomial::Degree`: `size() - 1` for a non-empty coefficient vector, else `0`. -/
def Degree (p : List α) : Nat :=
  if p.length > 0 then p.length - 1 else 0

/-- Source `Polynomial::_normalize`: erase the maximal run of zero coefficients at the back. -/
def _normalize [Zero α] [DecidableEq α] (p : List α) : List α :=
  p.rdropWhile (fun a => decide (a = 0))

/-- Source `std::vector::resize(n)`: truncate, or append value-initialised elements. -/
def resize [Zero α] (p : List α) (n : Nat) : List α :=
  p.take n ++ List.replicate (n - p.length) 0

/-- The normalization invariant: a non-empty sequence ends in a non-zero coefficient. -/
def Normalized [Zero α] (p : List α) : Prop :=
  ∀ a ∈ p.getLast?, a ≠ 0

instance [Zero α] [DecidableEq α] (p : List α) : Decidable (Normalized p) := by
  unfold Normalized; infer_instance

/-- Source `__polynomial_add(Polynomial&, const Polynomial&)`, lines 218-228. -/
def __polynomial_add [Zero α] [Add α] (a b : List α) : Option (List α) :=
  let n := max a.length b.length
  let a1 := if a.length < n then resize a n else a
  (List.range n).foldlM (fun acc i => do
    let bi ← b[i]?
    let ai ← acc[i]?
    pure (acc.set i (ai + bi))) a1

/-- Source `__polynomial_add(const Polynomial&, const T&)`, lines 230-240. -/
def __polynomial_add_scalar [Zero α] [Add α] [DecidableEq α] (a : List α) (b : α) : List α :=
  match a with
  | [] => _normalize [b]
  | a0 :: rest => _normalize ((a0 + b) :: rest)

/-- Source `__polynomial_sub(Polynomial&, const Polynomial&)`, lines 242-254. -/
def __polynomial_sub [Zero α] [Sub α] [DecidableEq α] (a b : List α) : Option (List α) :=
  let n := max a.length b.length
  let a1 := if a.length < n then resize a n else a
  do
    let a2 ← (List.range n).foldlM (fun acc i => do
      let bi ← b[i]?
      let ai ← acc[i]?
      pure (acc.set i (ai - bi))) a1
    pure (_normalize a2)

/-- Source `__polynomial_mul(Polynomial&, const Polynomial&)`, lines 256-271, for a right
operand `b` that is a different object from `a`: this is every call made by
`operator*`, which multiplies a copy of its left operand. The call with both parameters
bound to one object (`p *= p`) is `__polynomial_mul_ref a RightOperand.self`. -/
def __polynomial_mul [Zero α] [Add α] [Mul α] [DecidableEq α] (a b : List α) :
    Option (List α) :=
  let deg := Degree a
  let deg_p := Degree b
  let a1 := resize a (deg + deg_p + 1)
  do
    let a2 ← (List.range (deg + 1)).foldlM (fun acc i => do
      let base ← acc[deg - i]?
      let acc1 := acc.set (deg - i) 0
      (List.range (deg_p + 1)).foldlM (fun acc2 j => do
        let bj ← b[deg_p - j]?
        let cur ← acc2[deg - i + deg_p - j]?
        pure (acc2.set (deg - i + deg_p - j) (cur + base * bj))) acc1) a1
    pure (_normalize a2)

/-- Source `__polynomial_mul(Polynomial&, const T&)`, lines 273-281, for a scalar `b` that
is not stored in the polynomial being modified (every call made by `operator*`, which
scales a copy). A scalar bound to a coefficient of `a` itself is
`__polynomial_mul_scalar_ref a (ScalarOperand.coefficient k)`. -/
def __polynomial_mul_scalar [Zero α] [Mul α] [DecidableEq α] (a : List α) (b : α) : List α :=
  if b = 0 then [] else a.map (fun x => x * b)

/-- Source `operator/=(Polynomial&, const T&)`, lines 186-191, for a scalar `b` that is
not stored in the polynomial being modified (also `operator/`, lines 178-184, which
divides a copy). A scalar bound to a coefficient of `a` itself is
`div_scalar_ref a (ScalarOperand.coefficient k)`. -/
def div_scalar [Div α] (a : List α) (b : α) : List α :=
  a.map (fun x => x / b)

/-- Source `__polynomial_div`, lines 283-309: returns the pair (quotient, remainder). -/
def __polynomial_div [Zero α] [Sub α] [Mul α] [Div α] [DecidableEq α] (a b : List α) :
    Option (List α × List α) :=
  if Degree a < Degree b then some ([], a)
  else
    let deg_a := Degree a
    let deg_b := Degree b
    let deg_q := Degree a - Degree b
    do
      let qr ← (List.range (deg_q + 1)).foldlM (fun (st : List α × List α) i => do
        let lead ← st.2[deg_a - i]?
        if lead = 0 then pure st
        else do
          let back ← b.getLast?
          let coef := lead / back
          let q1 ← if deg_q - i < st.1.length then some (st.1.set (deg_q - i) coef) else none
          let r1 ← (List.range (deg_b + 1)).foldlM (fun r j => do
            let bj ← b[deg_b - j]?
            let cur ← r[deg_a - i - j]?
            pure (r.set (deg_a - i - j) (cur - coef * bj))) st.2
          pure (q1, r1)) (resize [] (deg_q + 1), a)
      pure (_normalize qr.1, _normalize qr.2)

/-- Source `Polynomial::operator()`, lines 44-60: evaluation by running powers of `x`. -/
def Evaluate [Zero α] [One α] [Add α] [Mul α] [DecidableEq α] (p : List α) (x : α) :
    Option α :=
  if x = 0 then do
    let a0 ← p[0]?
    pure (a0 * 1)
  else
    some (p.foldl (fun (st : α × α) a => (st.1 + a * st.2, st.2 * x)) (0, 1)).1

/-- Source `Polynomial(std::initializer_list<T>)`, lines 27-30: copy the list, then
`_normalize()`. -/
def Polynomial_of_list [Zero α] [DecidableEq α] (lst : List α) : List α :=
  _normalize lst

/-- Source `Polynomial::GetFormalDerivative`, lines 32-42. The early `return {T(0)};`
list-initializes the returned polynomial, that is, calls the initializer-list constructor. -/
def GetFormalDerivative [Zero α] [Mul α] [NatCast α] [DecidableEq α] (p : List α) :
    Option (List α) :=
  if p.length ≤ 1 then some (Polynomial_of_list [0])
  else
    (List.range (p.length - 1)).foldlM (fun res i => do
      let a ← p[i + 1]?
      if i < res.length then some (res.set i (a * ((i + 1 : Nat) : α))) else none)
      (List.replicate (p.length - 1) 0)

/-! ### Operands taken by reference

The in-place operators take their right operand by `const` reference, so it may be bound
to the very object, or to a coefficient of the very object, that the operator overwrites. -/

/-- The right operand of `__polynomial_mul(Polynomial&, const Polynomial&)`: another
object with coefficients `b`, or the left operand itself (`operator*=` called as `p *= p`,
lines 162-165). -/
inductive RightOperand (α : Type u) where
  | other (b : List α)
  | self

/-- The vector `b.Coefficients` as seen while the left operand's buffer holds `acc`. -/
def RightOperand.Coefficients (b : RightOperand α) (acc : List α) : List α :=
  match b with
  | RightOperand.other l => l
  | RightOperand.self => acc

/-- Source `__polynomial_mul(Polynomial&, const Polynomial&)`, lines 256-271, with the
right operand as the reference it is: `b.Coefficients` is read anew at every access. -/
def __polynomial_mul_ref [Zero α] [Add α] [Mul α] [DecidableEq α] (a : List α)
    (b : RightOperand α) : Option (List α) :=
  let deg := Degree a
  let deg_p := Degree (b.Coefficients a)
  let a1 := resize a (deg + deg_p + 1)
  do
    let a2 ← (List.range (deg + 1)).foldlM (fun acc i => do
      let base ← acc[deg - i]?
      let acc1 := acc.set (deg - i) 0
      (List.range (deg_p + 1)).foldlM (fun acc2 j => do
        let bj ← (b.Coefficients acc2)[deg_p - j]?
        let cur ← acc2[deg - i + deg_p - j]?
        pure (acc2.set (deg - i + deg_p - j) (cur + base * bj))) acc1) a1
    pure (_normalize a2)

/-- The scalar operand of an in-place scalar operator, taken by `const T&`: an independent
value, or coefficient `k` of the polynomial being modified (`p *= p.Coefficients[k]`). -/
inductive ScalarOperand (α : Type u) where
  | value (x : α)
  | coefficient (k : Nat)

/-- The scalar `b` as read while the polynomial's buffer holds `acc`. -/
def ScalarOperand.read (b : ScalarOperand α) (acc : List α) : Option α :=
  match b with
  | ScalarOperand.value x => some x
  | ScalarOperand.coefficient k => acc[k]?

/-- Source `__polynomial_mul(Polynomial&, const T&)`, lines 273-281, with the scalar as the
reference it is: `b` is read for the test and again in every iteration of `x *= b`. -/
def __polynomial_mul_scalar_ref [Zero α] [Mul α] [DecidableEq α] (a : List α)
    (b : ScalarOperand α) : Option (List α) := do
  let b0 ← b.read a
  if b0 = 0 then pure []
  else
    (List.range a.length).foldlM (fun acc i => do
      let x ← acc[i]?
      let bi ← b.read acc
      pure (acc.set i (x * bi))) a

/-- Source `operator/=(Polynomial&, const T&)`, lines 186-191, with the scalar as the
reference it is: `b` is read in every iteration of `x /= b`. -/
def div_scalar_ref [Div α] (a : List α) (b : ScalarOperand α) : Option (List α) :=
  (List.range a.length).foldlM (fun acc i => do
    let x ← acc[i]?
    let bi ← b.read acc
    pure (acc.set i (x / bi))) a

/-! ## Interpolators.hpp -/

/-- Source `Interpolator::CreateEquidistantNodes`, lines 25-38. The `logic_error` is `Except.error`. -/
def CreateEquidistantNodes [NatCast α] [Add α] [Sub α] [Mul α] [Div α]
    (f : α → α) (start_point end_point : α) (n : Nat) : Except String (List (α × α)) :=
  if n < 2 then .error "Attempted to create less than two nodes on an interval"
  else
    let interval_between := (end_point - start_point) / ((n - 1 : Nat) : α)
    .ok ((List.range n).map (fun (k : Nat) =>
      let x := start_point + (k : α) * interval_between
      (x, f x)))

/-- Source `Interpolator::Lagrange::ComputePolynomial`, lines 42-72. -/
def ComputePolynomial [Zero α] [One α] [Add α] [Sub α] [Neg α] [Mul α] [Div α]
    [DecidableEq α] (points : List (α × α)) : Option (List α) :=
  (List.range points.length).foldlM (fun res i => do
    let pi ← points[i]?
    let base ← (List.range points.length).foldlM (fun base j => do
      let pj ← points[j]?
      if i = j then pure base
      else do
        let base1 ← __polynomial_mul base [-pj.1, 1]
        pure (div_scalar base1 (pi.1 - pj.1))) [1]
    __polynomial_add res (__polynomial_mul_scalar base pi.2)) []

/-- The captured state of the closure returned by `CreateBarycentricInterpolator`. -/
structure BarycentricState (α : Type u) where
  weights : List α
  cp_points : List (α × α)
  precomputed_weights : Bool

/-- Source `Interpolator::Lagrange::CreateBarycentricInterpolator`, line 76: the captures. -/
def CreateBarycentricInterpolator [Zero α] (points : List (α × α)) : BarycentricState α :=
  { weights := List.replicate points.length 0
    cp_points := points
    precomputed_weights := false }

/-- Lines 77-85 of the closure body: the one-time weight computation. -/
def BarycentricState.precompute [One α] [Sub α] [Div α] (s : BarycentricState α) :
    Option (BarycentricState α) :=
  if s.precomputed_weights then some s
  else do
    let w0 := s.weights.map (fun _ => (1 : α))
    let w ← (List.range s.cp_points.length).foldlM (fun w i =>
      (List.range s.cp_points.length).foldlM (fun w j =>
        if i = j then pure w
        else do
          let wi ← w[i]?
          let pi ← s.cp_points[i]?
          let pj ← s.cp_points[j]?
          pure (w.set i (wi / (pi.1 - pj.1)))) w) w0
    pure { s with weights := w, precomputed_weights := true }

/-- The closure's call operator, lines 76-97: returns the value and the updated state. -/
def BarycentricState.call [Zero α] [One α] [Add α] [Sub α] [Mul α] [Div α]
    (s : BarycentricState α) (x : α) : Option (α × BarycentricState α) := do
  let s1 ← s.precompute
  let nd ← (List.range s1.cp_points.length).foldlM (fun (nd : α × α) i => do
    let wi ← s1.weights[i]?
    let pi ← s1.cp_points[i]?
    let holder := wi / (x - pi.1)
    pure (nd.1 + holder * pi.2, nd.2 + holder)) (0, 0)
  pure (nd.1 / nd.2, s1)

/-! ## uint128_t.hpp

The two `uint64_t` words are natural numbers below `2^64`; every `uint64_t` operation is
taken modulo `2^64`. -/

/-- Source `struct uint128_t`, lines 18-45: the high and the low 64-bit word. -/
structure uint128_t where
  _Hi : Nat
  _Lo : Nat
  deriving DecidableEq

/-- The number denoted by a `uint128_t` (specification side). -/
def uint128_t.toNat (a : uint128_t) : Nat :=
  a._Hi * 2 ^ 64 + a._Lo

/-- Source `operator+=(uint128_t&, uint128_t)`, lines 73-77. -/
def uint128_t.add_assign (a b : uint128_t) : uint128_t :=
  let lo := (a._Lo + b._Lo) % 2 ^ 64
  let carry : Nat := if lo < b._Lo then 1 else 0
  { _Hi := (a._Hi + (b._Hi + carry) % 2 ^ 64) % 2 ^ 64, _Lo := lo }

/-- Source `operator-=(uint128_t&, uint128_t)`, lines 79-83. A `uint64_t` difference
`x - y` is `(x + (2^64 - y)) mod 2^64`. -/
def uint128_t.sub_assign (a b : uint128_t) : uint128_t :=
  let lo := (a._Lo + (2 ^ 64 - b._Lo)) % 2 ^ 64
  let borrow : Nat := if lo > b._Lo then 1 else 0
  { _Hi := (a._Hi + (2 ^ 64 - (b._Hi + borrow) % 2 ^ 64)) % 2 ^ 64, _Lo := lo }

/-- Source `operator-(uint128_t, uint128_t)`, lines 149-152: copy, then `-=`. -/
def uint128_t.sub (a b : uint128_t) : uint128_t :=
  a.sub_assign b

/-! ## Matrices.hpp

A `Matrix<T, N, N>` is the list of its `N` rows, each a list of `N` entries. The loops of
`Det` only use indices below `N`, inside the `std::array`s, so entries are read with a
default. The array `pRows` of row pointers into the private copy `cp_M` is modelled by the
list of the rows pointed to: exchanging two pointers exchanges two entries of that list,
and an update through `*pRows[i]` replaces entry `i`. -/

/-- Entry `j` of row `i`. -/
def entry [Zero α] (rows : List (List α)) (i j : Nat) : α :=
  (rows.getD i []).getD j 0

/-- Source `std::swap(pRows[i], pRows[j])`. -/
def swapRows (rows : List (List α)) (i j : Nat) : List (List α) :=
  (rows.set i (rows.getD j [])).set j (rows.getD i [])

/-- Source unary right fold `(e * ...)` over the index pack `0 .. N-1`. -/
def foldMul [One α] [Mul α] : List α → α
  | [] => 1
  | [x] => x
  | x :: rest => x * foldMul rest

/-- Source `Det`, lines 115-137. An early `return T(0.0)` is `Except.error`. -/
def Det [Zero α] [One α] [Neg α] [Sub α] [Mul α] [Div α] [DecidableEq α]
    (N : Nat) (M : List (List α)) : α :=
  let loop : Except α (List (List α) × α) :=
    (List.range (N - 1)).foldlM (fun (st : List (List α) × α) j =>
      let st1 : List (List α) × α :=
        match (List.range' j (N - j)).find? (fun i => decide (entry st.1 i j ≠ 0)) with
        | some i => (swapRows st.1 i j, st.2 * (-1))
        | none => st
      if entry st1.1 j j = 0 then Except.error 0
      else
        Except.ok ((List.range' (j + 1) (N - (j + 1))).foldl (fun rows i =>
          rows.set i (List.zipWith (fun x y => x - y) (rows.getD i [])
            (((rows.getD j []).map (fun x => x * entry rows i j)).map
              (fun x => x / entry rows j j)))) st1.1, st1.2)) (M, 1)
  match loop with
  | Except.error v => v
  | Except.ok st => st.2 * foldMul ((List.range N).map (fun k => entry st.1 k k))

/-! ## Specification-side helpers -/

/-- Abscissa of node `k` of a point list (`0` beyond the list). -/
def nodeX [Zero α] (points : List (α × α)) (k : Nat) : α :=
  (points.getD k (0, 0)).1

/-- Coefficient at index `k`, reading an index beyond the sequence as `0`. -/
def coeff [Zero α] (p : List α) (k : Nat) : α := p.getD k 0

/-- The polynomial denoted by a coefficient sequence (specification side only). -/
noncomputable def toPoly [Semiring α] : List α → Polynomial α
  | [] => 0
  | a :: l => Polynomial.C a + Polynomial.X * toPoly l

/-! ## Theorems -/

section ListFacts

variable [Zero α]

theorem coeff_def (p : List α) (k : Nat) : coeff p k = p[k]?.getD 0 := by
  simp [coeff]

theorem coeff_of_length_le {p : List α} {k : Nat} (h : p.length ≤ k) : coeff p k = 0 := by
  simp [coeff_def, List.getElem?_eq_none h]

theorem getElem?_of_lt_coeff {p : List α} {k : Nat} (h : k < p.length) :
    p[k]? = some (coeff p k) := by
  simp [coeff_def, List.getElem?_eq_getElem h]

theorem list_ext_coeff {p q : List α} (hl : p.length = q.length)
    (h : ∀ k, coeff p k = coeff q k) : p = q := by
  apply List.ext_getElem? 
  intro k
  by_cases hk : k < p.length
  · rw [getElem?_of_lt_coeff hk, getElem?_of_lt_coeff (hl ▸ hk), h]
  · rw [List.getElem?_eq_none (by omega), List.getElem?_eq_none (by omega)]

theorem length_resize (p : List α) (n : Nat) : (resize p n).length = n := by
  simp [resize]; omega

theorem coeff_resize (p : List α) (n k : Nat) :
    coeff (resize p n) k = if k < n then coeff p k else 0 := by
  simp only [coeff_def, resize, List.getElem?_append, List.length_take, List.getElem?_take,
    List.getElem?_replicate]
  by_cases h1 : k < n
  · by_cases h2 : k < p.length
    · simp [h1, h2]
    · simp [h1, h2, List.getElem?_eq_none (Nat.le_of_not_lt h2)]
      split <;> simp
  · simp [h1]
    split <;> simp

theorem coeff_set (p : List α) (i k : Nat) (v : α) (hi : i < p.length) :
    coeff (p.set i v) k = if k = i then v else coeff p k := by
  simp only [coeff_def, List.getElem?_set]
  by_cases h : i = k
  · subst h; simp [hi]
  · simp [h, Ne.symm h, eq_comm]

theorem normalized_coeff_last {p : List α} (h : Normalized p) (hne : p ≠ []) :
    coeff p (p.length - 1) ≠ 0 := by
  have := h (p.getLast hne) (by simp [List.getLast?_eq_getLast _ hne])
  rw [coeff_def, ← List.getLast?_eq_getElem?, List.getLast?_eq_getLast _ hne]
  simpa using this

theorem normalized_of_coeff_last {p : List α} (h : coeff p (p.length - 1) ≠ 0) :
    Normalized p := by
  intro a ha
  rw [coeff_def, ← List.getLast?_eq_getElem?] at h
  rw [Option.mem_def] at ha
  rw [ha] at h
  simpa using h

/-- Two normalized sequences with the same coefficients are the same sequence. -/
theorem normalized_ext {p q : List α} (hp : Normalized p) (hq : Normalized q)
    (h : ∀ k, coeff p k = coeff q k) : p = q := by
  apply list_ext_coeff _ h
  by_contra hne
  rcases Nat.lt_or_gt_of_ne hne with hlt | hlt
  · have hq0 : q ≠ [] := by intro h0; simp [h0] at hlt
    have := normalized_coeff_last hq hq0
    rw [← h, coeff_of_length_le (by omega)] at this
    exact this rfl
  · have hp0 : p ≠ [] := by intro h0; simp [h0] at hlt
    have := normalized_coeff_last hp hp0
    rw [h, coeff_of_length_le (by omega)] at this
    exact this rfl

end ListFacts

section NormalizeFacts

variable [Zero α] [DecidableEq α]

theorem normalize_nil : _normalize ([] : List α) = [] := by
  simp [_normalize, List.rdropWhile]

theorem normalize_concat (p : List α) (a : α) :
    _normalize (p ++ [a]) = if a = 0 then _normalize p else p ++ [a] := by
  unfold _normalize
  rw [List.rdropWhile_concat]
  simp

theorem coeff_normalize (p : List α) (k : Nat) : coeff (_normalize p) k = coeff p k := by
  induction p using List.reverseRecOn with
  | nil => simp [normalize_nil]
  | append_singleton p a ih =>
    rw [normalize_concat]
    split
    · rename_i h
      rw [ih]
      simp only [coeff_def, List.getElem?_append]
      by_cases hk : k < p.length
      · simp [hk]
      · simp only [hk, if_false]
        rw [List.getElem?_eq_none (Nat.le_of_not_lt hk)]
        by_cases hk2 : k - p.length = 0
        · simp [hk2, h]
        · rw [List.getElem?_eq_none (by simp; omega)]
    · rfl

theorem length_normalize_le (p : List α) : (_normalize p).length ≤ p.length := by
  induction p using List.reverseRecOn with
  | nil => simp [normalize_nil]
  | append_singleton p a ih =>
    rw [normalize_concat]
    split
    · simp; omega
    · exact le_rfl

theorem normalized_normalize (p : List α) : Normalized (_normalize p) := by
  induction p using List.reverseRecOn with
  | nil => simp [normalize_nil, Normalized]
  | append_singleton p a ih =>
    rw [normalize_concat]
    split
    · exact ih
    · rename_i h
      simp [Normalized, h]

theorem normalize_of_normalized {p : List α} (h : Normalized p) : _normalize p = p := by
  induction p using List.reverseRecOn with
  | nil => exact normalize_nil
  | append_singleton p a _ =>
    rw [normalize_concat]
    have : a ≠ 0 := by
      apply h
      simp
    simp [this]

theorem length_normalize_le_of_coeff_zero {p : List α} {n : Nat}
    (h : ∀ k, n ≤ k → coeff p k = 0) : (_normalize p).length ≤ n := by
  induction p using List.reverseRecOn with
  | nil => simp [normalize_nil]
  | append_singleton p a ih =>
    rw [normalize_concat]
    by_cases hn : p.length < n
    · split
      · have := length_normalize_le p
        omega
      · simp; omega
    · have ha : a = 0 := by
        have := h p.length (by omega)
        simpa [coeff_def] using this
      rw [if_pos ha]
      apply ih
      intro k hk
      have := h k hk
      simp only [coeff_def, List.getElem?_append] at this ⊢
      by_cases hk2 : k < p.length
      · simpa [hk2] using this
      · rw [List.getElem?_eq_none (Nat.le_of_not_lt hk2)]; rfl

end NormalizeFacts

section Loops

/-- Unfolding the last iteration of a counted loop. -/
theorem foldlM_range_succ {σ : Type u} (f : σ → Nat → Option σ) (init : σ) (n : Nat) :
    (List.range (n + 1)).foldlM f init = ((List.range n).foldlM f init).bind (fun s => f s n) := by
  rw [List.range_succ, List.foldlM_append]
  simp

variable [Zero α]

/-- The shape shared by the inner loops of `__polynomial_mul` and `__polynomial_div`:
for `j = 0 .. t-1`, `acc[top - j] := op acc[top - j] (c * b[n - j])`. -/
theorem inner_loop [Mul α] (op : α → α → α) (c : α) (b : List α) (n top : Nat) (acc : List α)
    (hb : n < b.length) (htop : top < acc.length) (hn : n ≤ top) (t : Nat) (ht : t ≤ n + 1) :
    ∃ acc', (List.range t).foldlM (fun acc2 j => do
        let bj ← b[n - j]?
        let cur ← acc2[top - j]?
        pure (acc2.set (top - j) (op cur (c * bj)))) acc = some acc' ∧
      acc'.length = acc.length ∧
      ∀ k, coeff acc' k =
        if top < k + t ∧ k ≤ top then op (coeff acc k) (c * coeff b (k + n - top))
        else coeff acc k := by
  induction t with
  | zero =>
    refine ⟨acc, by simp, rfl, ?_⟩
    intro k
    rw [if_neg (by omega)]
  | succ t ih =>
    obtain ⟨acc1, h1, hlen, hco⟩ := ih (by omega)
    have hbt : b[n - t]? = some (coeff b (n - t)) := getElem?_of_lt_coeff (by omega)
    have hat : acc1[top - t]? = some (coeff acc1 (top - t)) := getElem?_of_lt_coeff (by omega)
    refine ⟨acc1.set (top - t) (op (coeff acc1 (top - t)) (c * coeff b (n - t))), ?_, ?_, ?_⟩
    · rw [List.range_succ, List.foldlM_append, h1]
      simp [hbt, hat]
    · simp [hlen]
    · intro k
      rw [coeff_set _ _ _ _ (by omega)]
      by_cases hk : k = top - t
      · subst hk
        rw [if_pos rfl, if_pos (by omega), hco, if_neg (by omega)]
        congr 3
        omega
      · rw [if_neg hk, hco]
        by_cases hc : top < k + t ∧ k ≤ top
        · rw [if_pos hc, if_pos (by omega)]
        · rw [if_neg hc, if_neg (by omega)]

end Loops

section Pointwise

/-- A counted loop whose body fails at iteration `m` fails as soon as it runs past `m`. -/
theorem loop_fails {σ : Type u} (f : σ → Nat → Option σ) (m : Nat) (hf : ∀ s, f s m = none)
    (n : Nat) (hn : m < n) (init : σ) : (List.range n).foldlM f init = none := by
  induction n with
  | zero => omega
  | succ n ih =>
    rw [List.range_succ, List.foldlM_append]
    by_cases h : m < n
    · rw [ih h]; rfl
    · have : n = m := by omega
      subst this
      cases (List.range n).foldlM f init with
      | none => rfl
      | some s => simp [hf]

variable [Zero α]

/-- The loop of `__polynomial_add` / `__polynomial_sub`: `acc[i] := op acc[i] b[i]`
for `i = 0 .. t-1`, as long as every index is inside both sequences. -/
theorem pointwise_loop (op : α → α → α) (b acc : List α) (t : Nat)
    (hb : t ≤ b.length) (ha : t ≤ acc.length) :
    ∃ acc', (List.range t).foldlM (fun acc i => do
        let bi ← b[i]?
        let ai ← acc[i]?
        pure (acc.set i (op ai bi))) acc = some acc' ∧
      acc'.length = acc.length ∧
      ∀ k, coeff acc' k = if k < t then op (coeff acc k) (coeff b k) else coeff acc k := by
  induction t with
  | zero => exact ⟨acc, by simp, rfl, fun k => by simp⟩
  | succ t ih =>
    obtain ⟨acc1, h1, hlen, hco⟩ := ih (by omega) (by omega)
    have hbt : b[t]? = some (coeff b t) := getElem?_of_lt_coeff (by omega)
    have hat : acc1[t]? = some (coeff acc1 t) := getElem?_of_lt_coeff (by omega)
    refine ⟨acc1.set t (op (coeff acc1 t) (coeff b t)), ?_, by simp [hlen], ?_⟩
    · rw [List.range_succ, List.foldlM_append, h1]
      simp [hbt, hat]
    · intro k
      rw [coeff_set _ _ _ _ (by omega)]
      by_cases hk : k = t
      · subst hk
        rw [if_pos rfl, if_pos (by omega), hco, if_neg (by omega)]
      · rw [if_neg hk, hco]
        by_cases hc : k < t
        · rw [if_pos hc, if_pos (by omega)]
        · rw [if_neg hc, if_neg (by omega)]

end Pointwise

section AddSub

variable [Zero α]

theorem resize_self (p : List α) : resize p p.length = p := by
  simp [resize]

/-- Closed form of `__polynomial_add` when the right operand is at least as long as the left one. -/
theorem add_spec [Add α] (a b : List α) (h : a.length ≤ b.length) :
    ∃ r, __polynomial_add a b = some r ∧ r.length = b.length ∧
      ∀ k, k < b.length → coeff r k = coeff a k + coeff b k := by
  have hn : max a.length b.length = b.length := max_eq_right h
  have ha1 : (if a.length < b.length then resize a b.length else a) = resize a b.length := by
    split
    · rfl
    · have : a.length = b.length := by omega
      rw [← this, resize_self]
  obtain ⟨r, hr, hlen, hco⟩ := pointwise_loop (· + ·) b (resize a b.length) b.length le_rfl
    (by rw [length_resize])
  refine ⟨r, ?_, by rw [hlen, length_resize], ?_⟩
  · unfold __polynomial_add
    simp only [hn, ha1]
    exact hr
  · intro k hk
    rw [hco, if_pos hk, coeff_resize, if_pos hk]

/-- The routine `__polynomial_add` reads `b.Coefficients[b.size()]` when the right operand is shorter. -/
theorem add_none [Add α] (a b : List α) (h : b.length < a.length) :
    __polynomial_add a b = none := by
  unfold __polynomial_add
  apply loop_fails _ b.length
  · intro s
    simp
  · exact lt_max_of_lt_left h

/-- Closed form of `__polynomial_sub` when the right operand is at least as long as the left one. -/
theorem sub_spec [Sub α] [DecidableEq α] (a b : List α) (h : a.length ≤ b.length) :
    ∃ r, __polynomial_sub a b = some (_normalize r) ∧ r.length = b.length ∧
      ∀ k, k < b.length → coeff r k = coeff a k - coeff b k := by
  have hn : max a.length b.length = b.length := max_eq_right h
  have ha1 : (if a.length < b.length then resize a b.length else a) = resize a b.length := by
    split
    · rfl
    · have : a.length = b.length := by omega
      rw [← this, resize_self]
  obtain ⟨r, hr, hlen, hco⟩ := pointwise_loop (· - ·) b (resize a b.length) b.length le_rfl
    (by rw [length_resize])
  refine ⟨r, ?_, by rw [hlen, length_resize], ?_⟩
  · unfold __polynomial_sub
    simp only [hn, ha1]
    rw [hr]
    rfl
  · intro k hk
    rw [hco, if_pos hk, coeff_resize, if_pos hk]

/-- The routine `__polynomial_sub` reads `b.Coefficients[b.size()]` when the right operand is shorter. -/
theorem sub_none [Sub α] [DecidableEq α] (a b : List α) (h : b.length < a.length) :
    __polynomial_sub a b = none := by
  unfold __polynomial_sub
  simp only []
  rw [loop_fails _ b.length _ _ (lt_max_of_lt_left h)]
  · rfl
  · intro s
    simp

end AddSub

section ToPoly

variable [Semiring α]

theorem coeff_toPoly (p : List α) (k : Nat) : (toPoly p).coeff k = coeff p k := by
  induction p generalizing k with
  | nil => simp [toPoly, coeff]
  | cons a l ih =>
    cases k with
    | zero => simp [toPoly, coeff]
    | succ k => simp [toPoly, coeff, ih, Polynomial.coeff_C_succ, - List.getD_eq_getElem?_getD]

theorem toPoly_congr {p q : List α} (h : ∀ k, coeff p k = coeff q k) : toPoly p = toPoly q := by
  ext k
  rw [coeff_toPoly, coeff_toPoly, h]

theorem coeff_eq_of_toPoly_eq {p q : List α} (h : toPoly p = toPoly q) (k : Nat) :
    coeff p k = coeff q k := by
  rw [← coeff_toPoly, ← coeff_toPoly, h]

theorem coeff_take (p : List α) (n k : Nat) :
    coeff (p.take n) k = if k < n then coeff p k else 0 := by
  simp only [coeff_def, List.getElem?_take]
  split <;> simp

theorem coeff_drop (p : List α) (n k : Nat) : coeff (p.drop n) k = coeff p (n + k) := by
  simp [coeff_def]

theorem toPoly_drop (p : List α) (n : Nat) :
    toPoly (p.drop n) = Polynomial.C (coeff p n) + Polynomial.X * toPoly (p.drop (n + 1)) := by
  ext k
  cases k with
  | zero => simp [coeff_toPoly, coeff_drop]
  | succ k =>
    simp only [coeff_toPoly, coeff_drop, Polynomial.coeff_add, Polynomial.coeff_C_succ,
      Polynomial.coeff_X_mul, zero_add]
    congr 1
    omega

theorem toPoly_resize (p : List α) (n : Nat) (h : p.length ≤ n) :
    toPoly (resize p n) = toPoly p := by
  apply toPoly_congr
  intro k
  rw [coeff_resize]
  split
  · rfl
  · rw [coeff_of_length_le (by omega)]

theorem toPoly_normalize [DecidableEq α] (p : List α) : toPoly (_normalize p) = toPoly p :=
  toPoly_congr (coeff_normalize p)

theorem toPoly_nil : toPoly ([] : List α) = 0 := rfl

theorem toPoly_eq_zero_iff [DecidableEq α] {p : List α} (hp : Normalized p) :
    toPoly p = 0 ↔ p = [] := by
  constructor
  · intro h
    apply normalized_ext hp (by simp [Normalized])
    intro k
    rw [← coeff_toPoly, h]
    simp [coeff]
  · intro h
    rw [h, toPoly_nil]

theorem toPoly_injective [DecidableEq α] {p q : List α} (hp : Normalized p) (hq : Normalized q)
    (h : toPoly p = toPoly q) : p = q :=
  normalized_ext hp hq (coeff_eq_of_toPoly_eq h)

theorem degree_toPoly_lt {p : List α} {n : Nat} (h : ∀ k, n ≤ k → coeff p k = 0) :
    (toPoly p).degree < n := by
  rw [Polynomial.degree_lt_iff_coeff_zero]
  intro k hk
  rw [coeff_toPoly, h k hk]

theorem natDegree_toPoly [DecidableEq α] {p : List α} (hp : Normalized p) (hne : p ≠ []) :
    (toPoly p).natDegree = p.length - 1 := by
  apply le_antisymm
  · rw [Polynomial.natDegree_le_iff_coeff_eq_zero]
    intro k hk
    rw [coeff_toPoly, coeff_of_length_le (by omega)]
  · apply Polynomial.le_natDegree_of_ne_zero
    rw [coeff_toPoly]
    exact normalized_coeff_last hp hne

end ToPoly

section MulSpec

theorem degree_add_one {b : List α} (hb : b ≠ []) : Degree b + 1 = b.length := by
  have : 0 < b.length := List.length_pos.mpr hb
  simp [Degree, this]
  omega

theorem length_le_degree_add_one (a : List α) : a.length ≤ Degree a + 1 := by
  unfold Degree
  split <;> omega

variable [Semiring α]

/-- One iteration of the outer loop of `__polynomial_mul`, at position `p = deg - i`. -/
theorem mul_step (a b acc : List α) (p : Nat) (hb : b ≠ [])
    (hlen : p + Degree b < acc.length)
    (hinv : toPoly acc = toPoly (a.take (p + 1)) +
      Polynomial.X ^ (p + 1) * (toPoly (a.drop (p + 1)) * toPoly b)) :
    ∃ acc', (do
        let base ← acc[p]?
        (List.range (Degree b + 1)).foldlM (fun acc2 j => do
          let bj ← b[Degree b - j]?
          let cur ← acc2[p + Degree b - j]?
          pure (acc2.set (p + Degree b - j) (cur + base * bj))) (acc.set p 0)) = some acc' ∧
      acc'.length = acc.length ∧
      toPoly acc' = toPoly (a.take p) + Polynomial.X ^ p * (toPoly (a.drop p) * toPoly b) := by
  have hbl := degree_add_one hb
  have hacc : ∀ k, coeff acc k = coeff (a.take (p + 1)) k +
      (Polynomial.X ^ (p + 1) * (toPoly (a.drop (p + 1)) * toPoly b)).coeff k := by
    intro k
    rw [← coeff_toPoly, hinv, Polynomial.coeff_add, coeff_toPoly]
  have hbase : coeff acc p = coeff a p := by
    rw [hacc, Polynomial.coeff_X_pow_mul', if_neg (by omega), coeff_take, if_pos (by omega),
      add_zero]
  obtain ⟨acc', h1, h2, h3⟩ := inner_loop (· + ·) (coeff a p) b (Degree b) (p + Degree b)
    (acc.set p 0) (by omega) (by simpa using hlen) (by omega) (Degree b + 1) le_rfl
  refine ⟨acc', ?_, by simpa using h2, ?_⟩
  · rw [getElem?_of_lt_coeff (by omega : p < acc.length), hbase]
    exact h1
  · rw [toPoly_drop a p, add_mul, mul_add, mul_assoc Polynomial.X, ← mul_assoc (Polynomial.X ^ p)
      Polynomial.X, ← pow_succ]
    ext k
    rw [coeff_toPoly, h3]
    simp only [Polynomial.coeff_add, Polynomial.coeff_X_pow_mul', Polynomial.coeff_C_mul,
      coeff_toPoly, coeff_take]
    have hset : coeff (acc.set p 0) k = if k = p then 0 else coeff acc k :=
      coeff_set _ _ _ _ (by omega)
    rw [hset]
    rcases Nat.lt_trichotomy k p with hk | hk | hk
    · have e1 : ¬ (p + Degree b < k + (Degree b + 1) ∧ k ≤ p + Degree b) := by omega
      have e2 : k ≠ p := by omega
      have e3 : k < p + 1 := by omega
      have e4 : ¬ p ≤ k := by omega
      have e5 : ¬ p + 1 ≤ k := by omega
      simp [e1, e2, e3, e4, e5, hk, hacc, coeff_take, Polynomial.coeff_X_pow_mul']
    · subst hk
      have e1 : k + Degree b < k + (Degree b + 1) := by omega
      have e5 : ¬ k + 1 ≤ k := by omega
      have e6 : k + Degree b - (k + Degree b) = 0 := by omega
      simp [e1, e5, e6]
    · have e2 : k ≠ p := by omega
      have e3 : ¬ k < p + 1 := by omega
      have e4 : p ≤ k := by omega
      have e5 : p + 1 ≤ k := by omega
      have e7 : ¬ k < p := by omega
      by_cases hk2 : k ≤ p + Degree b
      · have e1 : p + Degree b < k + (Degree b + 1) := by omega
        have e6 : k + Degree b - (p + Degree b) = k - p := by omega
        simp [e1, e2, e3, e4, e5, e6, e7, hk2, hacc, coeff_take, Polynomial.coeff_X_pow_mul']
        rw [add_comm]
      · have e8 : coeff b (k - p) = 0 := coeff_of_length_le (by omega)
        simp [e2, e3, e4, e5, e7, e8, hk2, hacc, coeff_take, Polynomial.coeff_X_pow_mul']

/-- The outer loop of `__polynomial_mul` after `i` iterations. -/
theorem mul_loop (a b : List α) (hb : b ≠ []) (i : Nat) (hi : i ≤ Degree a + 1) :
    ∃ acc, (List.range i).foldlM (fun acc i => do
        let base ← acc[Degree a - i]?
        let acc1 := acc.set (Degree a - i) 0
        (List.range (Degree b + 1)).foldlM (fun acc2 j => do
          let bj ← b[Degree b - j]?
          let cur ← acc2[Degree a - i + Degree b - j]?
          pure (acc2.set (Degree a - i + Degree b - j) (cur + base * bj))) acc1)
        (resize a (Degree a + Degree b + 1)) = some acc ∧
      acc.length = Degree a + Degree b + 1 ∧
      toPoly acc = toPoly (a.take (Degree a + 1 - i)) +
        Polynomial.X ^ (Degree a + 1 - i) * (toPoly (a.drop (Degree a + 1 - i)) * toPoly b) := by
  induction i with
  | zero =>
    refine ⟨resize a (Degree a + Degree b + 1), by simp, length_resize _ _, ?_⟩
    have hla := length_le_degree_add_one a
    rw [toPoly_resize _ _ (by omega), Nat.sub_zero, List.take_of_length_le hla,
      List.drop_of_length_le hla, toPoly_nil]
    simp
  | succ i ih =>
    obtain ⟨acc, h1, hlen, hinv⟩ := ih (by omega)
    have e1 : Degree a + 1 - i = Degree a - i + 1 := by omega
    have e2 : Degree a + 1 - (i + 1) = Degree a - i := by omega
    rw [e1] at hinv
    obtain ⟨acc', h2, hlen', hinv'⟩ := mul_step a b acc (Degree a - i) hb (by omega) hinv
    refine ⟨acc', ?_, by omega, ?_⟩
    · rw [foldlM_range_succ _ _ i, h1]
      simpa using h2
    · rw [e2]
      exact hinv'

/-- Closed form of `__polynomial_mul` for a non-empty right operand: before the final
`_normalize` the buffer has `deg + deg_p + 1` entries and denotes the product. -/
theorem mul_spec [DecidableEq α] (a b : List α) (hb : b ≠ []) :
    ∃ acc, __polynomial_mul a b = some (_normalize acc) ∧
      acc.length = Degree a + Degree b + 1 ∧ toPoly acc = toPoly a * toPoly b := by
  obtain ⟨acc, h1, hlen, hinv⟩ := mul_loop a b hb (Degree a + 1) le_rfl
  refine ⟨acc, ?_, hlen, ?_⟩
  · unfold __polynomial_mul
    simp only []
    rw [h1]
    rfl
  · rw [hinv]
    simp [toPoly_nil]

end MulSpec

section DivSpec

theorem getLast?_eq_coeff [Zero α] {b : List α} (hb : b ≠ []) :
    b.getLast? = some (coeff b (Degree b)) := by
  have h1 := degree_add_one hb
  rw [List.getLast?_eq_getElem?, getElem?_of_lt_coeff (by omega)]
  congr 2
  omega

theorem coeff_degree_ne_zero [Zero α] {b : List α} (hb : b ≠ []) (hn : Normalized b) :
    coeff b (Degree b) ≠ 0 := by
  have h1 := degree_add_one hb
  have := normalized_coeff_last hn hb
  have e : b.length - 1 = Degree b := by omega
  rwa [e] at this

variable [Field α] [DecidableEq α]

/-- One iteration of the loop of `__polynomial_div`, at remainder position
`top = deg_a - i` and quotient position `qi = deg_q - i`. -/
theorem div_step (b : List α) (hb : b ≠ []) (hn : Normalized b) (q r : List α) (top qi : Nat)
    (htop : top = qi + Degree b) (hr : top < r.length) (hq : qi < q.length)
    (hq0 : coeff q qi = 0) :
    ∃ q' r', (do
        let lead ← r[top]?
        if lead = 0 then pure (q, r)
        else do
          let back ← b.getLast?
          let q1 ← if qi < q.length then some (q.set qi (lead / back)) else none
          let r1 ← (List.range (Degree b + 1)).foldlM (fun r j => do
            let bj ← b[Degree b - j]?
            let cur ← r[top - j]?
            pure (r.set (top - j) (cur - lead / back * bj))) r
          pure (q1, r1)) = some (q', r') ∧
      q'.length = q.length ∧ r'.length = r.length ∧
      coeff r' top = 0 ∧ (∀ k, top < k → coeff r' k = coeff r k) ∧
      (∀ k, k ≠ qi → coeff q' k = coeff q k) ∧
      toPoly q' * toPoly b + toPoly r' = toPoly q * toPoly b + toPoly r := by
  have hbl := degree_add_one hb
  have hback := coeff_degree_ne_zero hb hn
  rw [getElem?_of_lt_coeff hr, getLast?_eq_coeff hb]
  by_cases hlead : coeff r top = 0
  · exact ⟨q, r, by simp [hlead], rfl, rfl, hlead, fun _ _ => rfl, fun _ _ => rfl, rfl⟩
  · obtain ⟨r', h1, h2, h3⟩ := inner_loop (· - ·) (coeff r top / coeff b (Degree b)) b
      (Degree b) top r (by omega) hr (by omega) (Degree b + 1) le_rfl
    refine ⟨q.set qi (coeff r top / coeff b (Degree b)), r', ?_, by simp, h2, ?_, ?_, ?_, ?_⟩
    · simp only [Option.pure_def, Option.bind_eq_bind, Option.some_bind, hlead, if_false, hq,
        if_true]
      simp only [Option.pure_def, Option.bind_eq_bind] at h1
      rw [h1]
      rfl
    · rw [h3, if_pos (by omega)]
      have e : top + Degree b - top = Degree b := by omega
      rw [e, div_mul_cancel₀ _ hback, sub_self]
    · intro k hk
      rw [h3, if_neg (by omega)]
    · intro k hk
      rw [coeff_set _ _ _ _ hq, if_neg hk]
    · have hq' : toPoly (q.set qi (coeff r top / coeff b (Degree b))) =
          toPoly q + Polynomial.C (coeff r top / coeff b (Degree b)) * Polynomial.X ^ qi := by
        ext k
        rw [coeff_toPoly, coeff_set _ _ _ _ hq, Polynomial.coeff_add, Polynomial.coeff_C_mul,
          Polynomial.coeff_X_pow, coeff_toPoly]
        by_cases hk : k = qi
        · subst hk; simp [hq0]
        · simp [hk]
      have hr' : toPoly r' = toPoly r -
          Polynomial.C (coeff r top / coeff b (Degree b)) * Polynomial.X ^ qi * toPoly b := by
        ext k
        rw [coeff_toPoly, h3, Polynomial.coeff_sub, mul_assoc, Polynomial.coeff_C_mul,
          Polynomial.coeff_X_pow_mul', coeff_toPoly, coeff_toPoly]
        by_cases hk : qi ≤ k
        · by_cases hk2 : k ≤ top
          · have e : k + Degree b - top = k - qi := by omega
            rw [if_pos (by omega), if_pos hk, e]
          · rw [if_neg (by omega), if_pos hk, coeff_of_length_le (by omega : b.length ≤ k - qi)]
            simp
        · rw [if_neg (by omega), if_neg hk]
          simp
      rw [hq', hr']
      ring

/-- The loop of `__polynomial_div` after `i` iterations. -/
theorem div_loop (a b : List α) (ha : a ≠ []) (hb : b ≠ []) (hn : Normalized b)
    (hdeg : Degree b ≤ Degree a) (i : Nat) (hi : i ≤ Degree a - Degree b + 1) :
    ∃ q r, (List.range i).foldlM (fun (st : List α × List α) i => do
        let lead ← st.2[Degree a - i]?
        if lead = 0 then pure st
        else do
          let back ← b.getLast?
          let coef := lead / back
          let q1 ← if Degree a - Degree b - i < st.1.length then
            some (st.1.set (Degree a - Degree b - i) coef) else none
          let r1 ← (List.range (Degree b + 1)).foldlM (fun r j => do
            let bj ← b[Degree b - j]?
            let cur ← r[Degree a - i - j]?
            pure (r.set (Degree a - i - j) (cur - coef * bj))) st.2
          pure (q1, r1)) (resize [] (Degree a - Degree b + 1), a) = some (q, r) ∧
      q.length = Degree a - Degree b + 1 ∧ r.length = a.length ∧
      (∀ k, Degree a < k + i → coeff r k = 0) ∧
      (∀ k, k + i ≤ Degree a - Degree b → coeff q k = 0) ∧
      toPoly q * toPoly b + toPoly r = toPoly a := by
  have hal := degree_add_one ha
  induction i with
  | zero =>
    have hq0 : ∀ k, coeff (resize ([] : List α) (Degree a - Degree b + 1)) k = 0 := by
      intro k
      rw [coeff_resize]
      split <;> simp [coeff]
    refine ⟨resize [] (Degree a - Degree b + 1), a, by simp, length_resize _ _, rfl, ?_, ?_, ?_⟩
    · intro k hk
      exact coeff_of_length_le (by omega)
    · intro k _
      exact hq0 k
    · have : toPoly (resize ([] : List α) (Degree a - Degree b + 1)) = 0 := by
        rw [← toPoly_nil]
        apply toPoly_congr
        intro k
        rw [hq0]
        simp [coeff]
      rw [this]
      simp
  | succ i ih =>
    obtain ⟨q, r, h1, hql, hrl, hr0, hq0, hinv⟩ := ih (by omega)
    obtain ⟨q', r', h2, hql', hrl', hr1, hr2, hq1, hinv'⟩ := div_step b hb hn q r (Degree a - i)
      (Degree a - Degree b - i) (by omega) (by omega) (by omega) (hq0 _ (by omega))
    refine ⟨q', r', ?_, by omega, by omega, ?_, ?_, ?_⟩
    · rw [foldlM_range_succ _ _ i, h1]
      simpa using h2
    · intro k hk
      by_cases hk2 : k = Degree a - i
      · rw [hk2, hr1]
      · rw [hr2 k (by omega), hr0 k (by omega)]
    · intro k hk
      rw [hq1 k (by omega), hq0 k (by omega)]
    · rw [hinv', hinv]

/-- Closed form of `__polynomial_div` past the early return: before the final `_normalize`
calls the buffers `q`, `r` satisfy `a = q * b + r` with `r` zero from index `deg_b` on. -/
theorem div_spec (a b : List α) (ha : a ≠ []) (hb : b ≠ []) (hn : Normalized b)
    (hdeg : Degree b ≤ Degree a) :
    ∃ q r, __polynomial_div a b = some (_normalize q, _normalize r) ∧
      q.length = Degree a - Degree b + 1 ∧
      (∀ k, Degree b ≤ k → coeff r k = 0) ∧
      toPoly q * toPoly b + toPoly r = toPoly a := by
  obtain ⟨q, r, h1, hql, _, hr0, _, hinv⟩ :=
    div_loop a b ha hb hn hdeg (Degree a - Degree b + 1) le_rfl
  refine ⟨q, r, ?_, hql, fun k hk => hr0 k (by omega), hinv⟩
  unfold __polynomial_div
  rw [if_neg (by omega)]
  simp only []
  rw [h1]
  rfl

end DivSpec

section Claims

theorem degree_eq (p : List α) : Degree p = p.length - 1 := by
  unfold Degree
  split <;> omega

theorem ne_nil_of_toPoly_ne_zero [Semiring α] {p : List α} (h : toPoly p ≠ 0) : p ≠ [] := by
  intro h0
  exact h (by rw [h0, toPoly_nil])

/-- Before its final `_normalize`, the product buffer of two non-zero normalized operands
already ends in a non-zero coefficient (no zero divisors). -/
theorem mul_spec_normalized [Semiring α] [NoZeroDivisors α] [DecidableEq α] (P Q : List α)
    (hP : P ≠ []) (hPn : Normalized P) (hQ : Q ≠ []) (hQn : Normalized Q) :
    ∃ R, __polynomial_mul P Q = some R ∧ R.length = Degree P + Degree Q + 1 ∧
      Normalized R ∧ toPoly R = toPoly P * toPoly Q := by
  obtain ⟨acc, h1, hlen, hpoly⟩ := mul_spec P Q hQ
  have hnorm : Normalized acc := by
    apply normalized_of_coeff_last
    have e : acc.length - 1 = (toPoly P).natDegree + (toPoly Q).natDegree := by
      rw [natDegree_toPoly hPn hP, natDegree_toPoly hQn hQ, hlen, degree_eq, degree_eq]
      omega
    rw [e, ← coeff_toPoly, hpoly, Polynomial.coeff_mul_degree_add_degree]
    apply mul_ne_zero
    · rw [Polynomial.leadingCoeff, coeff_toPoly, natDegree_toPoly hPn hP]
      exact normalized_coeff_last hPn hP
    · rw [Polynomial.leadingCoeff, coeff_toPoly, natDegree_toPoly hQn hQ]
      exact normalized_coeff_last hQn hQ
  refine ⟨acc, ?_, hlen, hnorm, hpoly⟩
  rw [h1, normalize_of_normalized hnorm]

variable [Field α] [DecidableEq α]

/-- C3: exact division. For non-zero normalized `A` and `Q` over a field, `__polynomial_mul`
returns a product `M`, and `__polynomial_div M Q` returns the quotient `A` together with the
empty coefficient sequence as remainder. -/
theorem exact_division (A Q : List α) (hA : A ≠ []) (hAn : Normalized A) (hQ : Q ≠ [])
    (hQn : Normalized Q) :
    ∃ M, __polynomial_mul A Q = some M ∧ __polynomial_div M Q = some (A, []) := by
  obtain ⟨M, hM, hMlen, _, hMpoly⟩ := mul_spec_normalized A Q hA hAn hQ hQn
  have hM0 : M ≠ [] := by
    intro h0
    rw [h0] at hMlen
    simp at hMlen
  have hdeg : Degree Q ≤ Degree M := by
    rw [degree_eq M, hMlen]
    omega
  obtain ⟨q, r, hdiv, _, hr0, hinv⟩ := div_spec M Q hM0 hQ hQn hdeg
  have hQ0 : toPoly Q ≠ 0 := fun h => hQ ((toPoly_eq_zero_iff hQn).mp h)
  have hrdeg : (toPoly r).degree < (toPoly Q).degree := by
    rw [Polynomial.degree_eq_natDegree hQ0, natDegree_toPoly hQn hQ, ← degree_eq]
    exact degree_toPoly_lt hr0
  have hr : toPoly r = (toPoly A - toPoly q) * toPoly Q := by
    rw [sub_mul, ← hMpoly, ← hinv]
    ring
  have hrz : toPoly r = 0 :=
    Polynomial.eq_zero_of_dvd_of_degree_lt ⟨toPoly A - toPoly q, by rw [hr]; ring⟩ hrdeg
  have hq : toPoly q = toPoly A := by
    rw [hrz] at hr
    have := (mul_eq_zero.mp hr.symm).resolve_right hQ0
    exact (sub_eq_zero.mp this).symm
  refine ⟨M, hM, ?_⟩
  rw [hdiv]
  have e1 : _normalize q = A :=
    toPoly_injective (normalized_normalize q) hAn (by rw [toPoly_normalize, hq])
  have e2 : _normalize r = [] :=
    toPoly_injective (normalized_normalize r) (by simp [Normalized])
      (by rw [toPoly_normalize, hrz, toPoly_nil])
  rw [e1, e2]

/-- Scenario C through `exact_division`: `(x + 1) * (x - 1) = x^2 - 1`, and dividing
`x^2 - 1` by `x - 1` yields quotient `x + 1` and the empty remainder. -/
theorem exact_division_witness :
    __polynomial_mul ([1, 1] : List ℚ) [-1, 1] = some [-1, 0, 1] ∧
      __polynomial_div ([-1, 0, 1] : List ℚ) [-1, 1] = some ([1, 1], []) := by
  obtain ⟨M, hM, hD⟩ := exact_division ([1, 1] : List ℚ) [-1, 1] (by decide) (by decide)
    (by decide) (by decide)
  have h : __polynomial_mul ([1, 1] : List ℚ) [-1, 1] = some [-1, 0, 1] := by decide!
  have hMe : M = [-1, 0, 1] := Option.some.inj (hM.symm.trans h)
  rw [hMe] at hD
  exact ⟨h, hD⟩

/-- C2 (amended): apart from the pair (`P` empty, `Q` constant), `__polynomial_div` returns
a remainder with fewer coefficients than the non-zero normalized divisor `Q`; hence
`Degree r < Degree Q` as soon as `Q` is not constant, and for a constant `Q` the remainder
is the empty sequence. -/
theorem div_remainder_shorter (P Q : List α) (hQ : Q ≠ []) (hQn : Normalized Q)
    (hPQ : P ≠ [] ∨ 2 ≤ Q.length) :
    ∃ q r, __polynomial_div P Q = some (q, r) ∧ r.length < Q.length ∧
      (2 ≤ Q.length → Degree r < Degree Q) ∧ (Q.length = 1 → r = []) := by
  have hQl : 0 < Q.length := List.length_pos.mpr hQ
  have key : ∃ q r, __polynomial_div P Q = some (q, r) ∧ r.length < Q.length := by
    by_cases hdeg : Degree P < Degree Q
    · refine ⟨[], P, ?_, ?_⟩
      · unfold __polynomial_div
        rw [if_pos hdeg]
      · rw [degree_eq, degree_eq] at hdeg
        omega
    · have hP : P ≠ [] := by
        rcases hPQ with h | h
        · exact h
        · rw [degree_eq, degree_eq] at hdeg
          intro h0
          rw [h0] at hdeg
          simp at hdeg
          omega
      obtain ⟨q, r, hdiv, _, hr0, _⟩ := div_spec P Q hP hQ hQn (by omega)
      refine ⟨_normalize q, _normalize r, hdiv, ?_⟩
      have := length_normalize_le_of_coeff_zero hr0
      rw [degree_eq] at this
      omega
  obtain ⟨q, r, h1, h2⟩ := key
  refine ⟨q, r, h1, h2, ?_, ?_⟩
  · intro h
    rw [degree_eq, degree_eq]
    omega
  · intro h
    apply List.eq_nil_of_length_eq_zero
    omega

/-- Instance of `div_remainder_shorter`: `x^2 + 1` divided by `x - 1` leaves remainder `[2]`. -/
theorem div_remainder_shorter_witness :
    __polynomial_div ([1, 0, 1] : List ℚ) [-1, 1] = some ([1, 1], [2]) ∧
      ∃ q r, __polynomial_div ([1, 0, 1] : List ℚ) [-1, 1] = some (q, r) ∧
        r.length < ([-1, 1] : List ℚ).length ∧
        (2 ≤ ([-1, 1] : List ℚ).length → Degree r < Degree ([-1, 1] : List ℚ)) ∧
        (([-1, 1] : List ℚ).length = 1 → r = []) :=
  ⟨by decide!, div_remainder_shorter [1, 0, 1] [-1, 1] (by decide) (by decide)
    (Or.inl (by decide))⟩

/-- C2 (as stated) fails for a constant divisor: `[1]` divided by `[1]` leaves the empty
remainder, whose `Degree` is `0`, not below `Degree [1] = 0`. -/
theorem div_remainder_degree_constant_divisor :
    Normalized ([1] : List ℚ) ∧
      __polynomial_div ([1] : List ℚ) [1] = some ([1], []) ∧
      ¬ Degree ([] : List ℚ) < Degree ([1] : List ℚ) := by
  decide!

end Claims

section Claims2

/-- Product of different objects (every call made by `operator*`): for a non-empty right
operand `Q` and every left operand `P`, `__polynomial_mul` returns a sequence whose
coefficient at every index `k`, read as `0` beyond its length, is the convolution sum over
`i + j = k` of `P[i] * Q[j]`. -/
theorem mul_is_convolution [Semiring α] [DecidableEq α] (P Q : List α) (hQ : Q ≠ []) :
    ∃ R, __polynomial_mul P Q = some R ∧
      ∀ k, coeff R k = ∑ ij ∈ Finset.antidiagonal k, coeff P ij.1 * coeff Q ij.2 := by
  obtain ⟨acc, h1, _, hpoly⟩ := mul_spec P Q hQ
  refine ⟨_normalize acc, h1, ?_⟩
  intro k
  rw [coeff_normalize, ← coeff_toPoly, hpoly, Polynomial.coeff_mul]
  simp only [coeff_toPoly]

/-- Instance of `mul_is_convolution` over the integers: `(1 + 2x)(3 + 4x) = 3 + 10x + 8x^2`. -/
theorem mul_is_convolution_witness :
    __polynomial_mul ([1, 2] : List ℤ) [3, 4] = some [3, 10, 8] ∧
      ∃ R, __polynomial_mul ([1, 2] : List ℤ) [3, 4] = some R ∧
        ∀ k, coeff R k = ∑ ij ∈ Finset.antidiagonal k,
          coeff ([1, 2] : List ℤ) ij.1 * coeff ([3, 4] : List ℤ) ij.2 :=
  ⟨by decide, mul_is_convolution [1, 2] [3, 4] (by decide)⟩

/-- Product of different objects (every call made by `operator*`): over a field, the
product of two non-zero normalized polynomials has exactly `Degree P + Degree Q + 1`
coefficients, so its `Degree` is `Degree P + Degree Q`. -/
theorem mul_length [Field α] [DecidableEq α] (P Q : List α) (hP : P ≠ [])
    (hPn : Normalized P) (hQ : Q ≠ []) (hQn : Normalized Q) :
    ∃ R, __polynomial_mul P Q = some R ∧ R.length = Degree P + Degree Q + 1 ∧
      Degree R = Degree P + Degree Q := by
  obtain ⟨R, h1, hlen, _, _⟩ := mul_spec_normalized P Q hP hPn hQ hQn
  refine ⟨R, h1, hlen, ?_⟩
  rw [degree_eq R, hlen]
  omega

/-- Instance of `mul_length`: `(1 + x)(-1 + x)` has `1 + 1 + 1 = 3` coefficients. -/
theorem mul_length_witness :
    ∃ R, __polynomial_mul ([1, 1] : List ℚ) [-1, 1] = some R ∧
      R.length = Degree ([1, 1] : List ℚ) + Degree ([-1, 1] : List ℚ) + 1 ∧
      Degree R = Degree ([1, 1] : List ℚ) + Degree ([-1, 1] : List ℚ) :=
  mul_length [1, 1] [-1, 1] (by decide) (by decide) (by decide) (by decide)

end Claims2

section Reconstruction

variable [Field α] [DecidableEq α]

/-- Past the early return of `__polynomial_div`, rebuilding `q * Q + r` with the engine's
`__polynomial_mul` and `__polynomial_add` always accesses the remainder out of range: the
product has `P.length` coefficients and the remainder fewer than `Q.length`. -/
theorem reconstruction_add_none (P Q : List α) (hP : P ≠ []) (hPn : Normalized P)
    (hQ : Q ≠ []) (hQn : Normalized Q) (hdeg : Degree Q ≤ Degree P) :
    ∃ q r m, __polynomial_div P Q = some (q, r) ∧ __polynomial_mul q Q = some m ∧
      __polynomial_add m r = none := by
  obtain ⟨q, r, hdiv, _, hr0, hinv⟩ := div_spec P Q hP hQ hQn hdeg
  have hQ0 : toPoly Q ≠ 0 := fun h => hQ ((toPoly_eq_zero_iff hQn).mp h)
  have hP0 : toPoly P ≠ 0 := fun h => hP ((toPoly_eq_zero_iff hPn).mp h)
  have hrdeg : (toPoly r).degree < (toPoly Q).degree := by
    rw [Polynomial.degree_eq_natDegree hQ0, natDegree_toPoly hQn hQ, ← degree_eq]
    exact degree_toPoly_lt hr0
  have hq0 : toPoly q ≠ 0 := by
    intro h0
    rw [h0, zero_mul, zero_add] at hinv
    rw [hinv, Polynomial.degree_eq_natDegree hP0, Polynomial.degree_eq_natDegree hQ0,
      natDegree_toPoly hPn hP, natDegree_toPoly hQn hQ, ← degree_eq, ← degree_eq] at hrdeg
    have := Nat.cast_lt.mp hrdeg
    omega
  have hnq : _normalize q ≠ [] :=
    ne_nil_of_toPoly_ne_zero (by rw [toPoly_normalize]; exact hq0)
  obtain ⟨m, hm, hmlen, _, _⟩ :=
    mul_spec_normalized (_normalize q) Q hnq (normalized_normalize q) hQ hQn
  refine ⟨_normalize q, _normalize r, m, hdiv, hm, add_none _ _ ?_⟩
  have h1 := length_normalize_le_of_coeff_zero hr0
  omega

/-- On the early return of `__polynomial_div` (`Degree P < Degree Q`) the reconstruction
`q * Q + r` with the engine's `__polynomial_mul` and `__polynomial_add` gives back `P`. -/
theorem reconstruction_early_return (P Q : List α) (hQ : Q ≠ [])
    (hdeg : Degree P < Degree Q) :
    ∃ q r m, __polynomial_div P Q = some (q, r) ∧ __polynomial_mul q Q = some m ∧
      __polynomial_add m r = some P := by
  obtain ⟨acc, hm, _, hpoly⟩ := mul_spec ([] : List α) Q hQ
  have hm0 : _normalize acc = [] := by
    apply toPoly_injective (normalized_normalize acc) (by simp [Normalized])
    rw [toPoly_normalize, hpoly, toPoly_nil, zero_mul]
  obtain ⟨s, hs, hslen, hsco⟩ := add_spec ([] : List α) P (by simp)
  have hsP : s = P := by
    apply list_ext_coeff hslen
    intro k
    by_cases hk : k < P.length
    · rw [hsco k hk]
      simp [coeff]
    · rw [coeff_of_length_le (by omega), coeff_of_length_le (by omega)]
  refine ⟨[], P, [], ?_, ?_, ?_⟩
  · unfold __polynomial_div
    rw [if_pos hdeg]
  · rw [hm, hm0]
  · rw [hs, hsP]

end Reconstruction

section Defects

/-- C1: at `P = x^2 - 1`, `Q = x - 1` the division returns `q = [1, 1]`, `r = []`, the
product `q * Q` is `[-1, 0, 1]`, and `__polynomial_add` of that product and the shorter `r`
accesses `r.Coefficients[0]`, which does not exist; with `P` empty and `Q` constant the
division itself accesses `r.Coefficients[0]` of the empty remainder. -/
theorem division_law_reconstruction_out_of_range :
    (Normalized ([-1, 0, 1] : List ℚ) ∧ Normalized ([-1, 1] : List ℚ) ∧
      __polynomial_div ([-1, 0, 1] : List ℚ) [-1, 1] = some ([1, 1], []) ∧
      __polynomial_mul ([1, 1] : List ℚ) [-1, 1] = some [-1, 0, 1] ∧
      __polynomial_add ([-1, 0, 1] : List ℚ) [] = none) ∧
    __polynomial_div ([] : List ℚ) [2] = none := by
  decide!

/-- C4: for the points `(0, 1), (1, 0)` (distinct abscissae, second ordinate `0`)
`ComputePolynomial` adds the cleared term `base * 0 = []` to the non-empty partial sum
`[1, -1]`, and `__polynomial_add` accesses an element outside the cleared term. -/
theorem computePolynomial_zero_ordinate_out_of_range :
    (([(0, 1), (1, 0)] : List (ℚ × ℚ)).map Prod.fst).Nodup ∧
      ComputePolynomial ([(0, 1), (1, 0)] : List (ℚ × ℚ)) = none := by
  decide!

/-- C5: sampling `F = x - 1` (two coefficients) at two equidistant nodes of `[0, 1]` gives
the nodes `(0, -1), (1, 0)`, on which `ComputePolynomial` accesses an element out of range
and returns no coefficient sequence at all. -/
theorem interpolation_exactness_out_of_range :
    (∀ x : ℚ, Evaluate ([-1, 1] : List ℚ) x = some (x - 1)) ∧
      (CreateEquidistantNodes (fun x : ℚ => x - 1) 0 1 2).toOption =
        some [(0, -1), (1, 0)] ∧
      ComputePolynomial ([(0, -1), (1, 0)] : List (ℚ × ℚ)) = none := by
  refine ⟨?_, by decide!, by decide!⟩
  intro x
  unfold Evaluate
  split
  · rename_i h
    simp [h]
  · simp
    ring

/-- C6: on the nodes `(0, 1), (1, 0)` and the non-node query `x = 2` the barycentric
evaluator returns `-1`, while `ComputePolynomial` accesses an element out of range and
yields no polynomial to evaluate. -/
theorem barycentric_lagrange_out_of_range :
    (([(0, 1), (1, 0)] : List (ℚ × ℚ)).map Prod.fst).Nodup ∧
      (((CreateBarycentricInterpolator ([(0, 1), (1, 0)] : List (ℚ × ℚ))).call 2).map
        Prod.fst) = some (-1) ∧
      ComputePolynomial ([(0, 1), (1, 0)] : List (ℚ × ℚ)) = none := by
  decide!

/-- C9: adding the shorter right operand `[1]` to `[1, 2]` accesses `b.Coefficients[1]`,
an element outside the right operand's sequence. -/
theorem add_shorter_right_operand_out_of_range :
    __polynomial_add ([1, 2] : List ℚ) [1] = none := by
  decide!

/-- C10: subtracting the shorter right operand `[1]` from `[1, 2]` accesses
`b.Coefficients[1]`, an element outside the right operand's sequence. -/
theorem sub_shorter_right_operand_out_of_range :
    __polynomial_sub ([1, 2] : List ℚ) [1] = none := by
  decide!

end Defects

section NormalizationInvariant

/-- Whatever `__polynomial_sub` returns went through `_normalize`. -/
theorem sub_result_normalized [Zero α] [Sub α] [DecidableEq α] (a b r : List α)
    (h : __polynomial_sub a b = some r) : Normalized r := by
  unfold __polynomial_sub at h
  simp only [] at h
  obtain ⟨a2, _, h2⟩ := Option.bind_eq_some.mp h
  have : _normalize a2 = r := Option.some.inj h2
  rw [← this]
  exact normalized_normalize a2

/-- Whatever `__polynomial_mul` returns went through `_normalize`. -/
theorem mul_result_normalized [Zero α] [Add α] [Mul α] [DecidableEq α] (a b r : List α)
    (h : __polynomial_mul a b = some r) : Normalized r := by
  unfold __polynomial_mul at h
  simp only [] at h
  obtain ⟨a2, _, h2⟩ := Option.bind_eq_some.mp h
  have : _normalize a2 = r := Option.some.inj h2
  rw [← this]
  exact normalized_normalize a2

/-- Both components returned by `__polynomial_div` are normalized: on the early return the
remainder is the (normalized) dividend, otherwise both went through `_normalize`. -/
theorem div_result_normalized [Zero α] [Sub α] [Mul α] [Div α] [DecidableEq α]
    (a b q r : List α) (ha : Normalized a) (h : __polynomial_div a b = some (q, r)) :
    Normalized q ∧ Normalized r := by
  unfold __polynomial_div at h
  split at h
  · have h1 := Option.some.inj h
    have hq : q = [] := (congrArg Prod.fst h1).symm
    have hr : r = a := (congrArg Prod.snd h1).symm
    rw [hq, hr]
    exact ⟨by simp [Normalized], ha⟩
  · simp only [] at h
    obtain ⟨qr, _, h2⟩ := Option.bind_eq_some.mp h
    have h3 := Option.some.inj h2
    have hq : _normalize qr.1 = q := congrArg Prod.fst h3
    have hr : _normalize qr.2 = r := congrArg Prod.snd h3
    rw [← hq, ← hr]
    exact ⟨normalized_normalize _, normalized_normalize _⟩

theorem mul_scalar_normalized [MulZeroClass α] [NoZeroDivisors α] [DecidableEq α]
    (a : List α) (b : α) (ha : Normalized a) : Normalized (__polynomial_mul_scalar a b) := by
  unfold __polynomial_mul_scalar
  split
  · simp [Normalized]
  · rename_i hb
    intro x hx
    rw [List.getLast?_map] at hx
    obtain ⟨y, hy, rfl⟩ := Option.map_eq_some'.mp hx
    exact mul_ne_zero (ha y hy) hb

theorem add_scalar_normalized [Zero α] [Add α] [DecidableEq α] (a : List α) (b : α) :
    Normalized (__polynomial_add_scalar a b) := by
  unfold __polynomial_add_scalar
  split <;> exact normalized_normalize _

end NormalizationInvariant

section NormalizationClaim

variable [Field α] [DecidableEq α]

/-- Where `__polynomial_div` is defined: a non-zero normalized divisor, the pair
(dividend empty, divisor constant) apart. -/
theorem div_defined (P Q : List α) (hQ : Q ≠ []) (hQn : Normalized Q)
    (hPQ : P ≠ [] ∨ 2 ≤ Q.length) : ∃ q r, __polynomial_div P Q = some (q, r) := by
  by_cases hdeg : Degree P < Degree Q
  · refine ⟨[], P, ?_⟩
    unfold __polynomial_div
    rw [if_pos hdeg]
  · have hP : P ≠ [] := by
      rcases hPQ with h | h
      · exact h
      · rw [degree_eq, degree_eq] at hdeg
        intro h0
        rw [h0] at hdeg
        simp at hdeg
        omega
    obtain ⟨q, r, hdiv, _⟩ := div_spec P Q hP hQ hQn (by omega)
    exact ⟨_, _, hdiv⟩

/-- C11: over a field, for normalized `P`, `Q` and any scalar `c`, every result that
`__polynomial_sub P Q`, `__polynomial_mul P Q` and `__polynomial_div P Q` (both components)
return is normalized, and so are `P * c` and `P + c`; the three partial operations are
defined at least when `|P| <= |Q|` (Sub), `Q` is non-empty (Mul), and `Q` is non-empty
with `P` non-empty or `Q` non-constant (Div). -/
theorem normalization_invariant (P Q : List α) (c : α) (hP : Normalized P)
    (hQ : Normalized Q) :
    ((P.length ≤ Q.length → ∃ r, __polynomial_sub P Q = some r) ∧
      ∀ r, __polynomial_sub P Q = some r → Normalized r) ∧
    ((Q ≠ [] → ∃ r, __polynomial_mul P Q = some r) ∧
      ∀ r, __polynomial_mul P Q = some r → Normalized r) ∧
    Normalized (__polynomial_mul_scalar P c) ∧
    Normalized (__polynomial_add_scalar P c) ∧
    ((Q ≠ [] → (P ≠ [] ∨ 2 ≤ Q.length) → ∃ q r, __polynomial_div P Q = some (q, r)) ∧
      ∀ q r, __polynomial_div P Q = some (q, r) → Normalized q ∧ Normalized r) := by
  refine ⟨⟨?_, fun r h => sub_result_normalized P Q r h⟩,
    ⟨?_, fun r h => mul_result_normalized P Q r h⟩,
    mul_scalar_normalized P c hP, add_scalar_normalized P c,
    ⟨fun h1 h2 => div_defined P Q h1 hQ h2, fun q r h => div_result_normalized P Q q r hP h⟩⟩
  · intro h
    obtain ⟨r, hr, _⟩ := sub_spec P Q h
    exact ⟨_, hr⟩
  · intro h
    obtain ⟨acc, hr, _⟩ := mul_spec P Q h
    exact ⟨_, hr⟩

/-- Instance of `normalization_invariant` at `P = [1, 1]`, `Q = [-1, 1]`, `c = -1`, where
`P - Q = [2]` and `P + c = [0, 1]`, together with the values the routines return there. -/
theorem normalization_invariant_witness :
    (__polynomial_sub ([1, 1] : List ℚ) [-1, 1] = some [2] ∧
      __polynomial_mul ([1, 1] : List ℚ) [-1, 1] = some [-1, 0, 1] ∧
      __polynomial_mul_scalar ([1, 1] : List ℚ) (-1) = [-1, -1] ∧
      __polynomial_add_scalar ([1, 1] : List ℚ) (-1) = [0, 1] ∧
      __polynomial_div ([1, 1] : List ℚ) [-1, 1] = some ([1], [2])) ∧
    Normalized (__polynomial_mul_scalar ([1, 1] : List ℚ) (-1)) ∧
    Normalized (__polynomial_add_scalar ([1, 1] : List ℚ) (-1)) ∧
    (∀ q r, __polynomial_div ([1, 1] : List ℚ) [-1, 1] = some (q, r) →
      Normalized q ∧ Normalized r) :=
  have h := normalization_invariant ([1, 1] : List ℚ) [-1, 1] (-1) (by decide) (by decide)
  ⟨by decide!, h.2.2.1, h.2.2.2.1, h.2.2.2.2.2⟩

end NormalizationClaim

section RingIdentities

theorem add_some_length_le [Zero α] [Add α] {a b r : List α}
    (h : __polynomial_add a b = some r) : a.length ≤ b.length := by
  by_contra hlt
  rw [add_none a b (by omega)] at h
  exact Option.noConfusion h

/-- With an empty right operand `__polynomial_mul` reads `b.Coefficients[0]`. -/
theorem mul_nil_right [Zero α] [Add α] [Mul α] [DecidableEq α] (a : List α) :
    __polynomial_mul a ([] : List α) = none := by
  unfold __polynomial_mul
  simp only []
  rw [loop_fails _ 0 _ _ (Nat.succ_pos _)]
  · rfl
  · intro s
    cases s[Degree a - 0]? <;> simp [Degree, List.range_succ]

variable [Semiring α]

theorem toPoly_add {a b r : List α} (h : __polynomial_add a b = some r) :
    toPoly r = toPoly a + toPoly b := by
  have hle := add_some_length_le h
  obtain ⟨r1, h1, hlen, hco⟩ := add_spec a b hle
  have hr : r1 = r := Option.some.inj (h1.symm.trans h)
  subst hr
  ext k
  rw [Polynomial.coeff_add, coeff_toPoly, coeff_toPoly, coeff_toPoly]
  by_cases hk : k < b.length
  · exact hco k hk
  · rw [coeff_of_length_le (by omega), coeff_of_length_le (by omega),
      coeff_of_length_le (by omega), add_zero]

theorem toPoly_mul [DecidableEq α] {a b r : List α} (h : __polynomial_mul a b = some r) :
    toPoly r = toPoly a * toPoly b := by
  have hb : b ≠ [] := by
    intro h0
    rw [h0, mul_nil_right] at h
    exact Option.noConfusion h
  obtain ⟨acc, h1, _, hp⟩ := mul_spec a b hb
  have hr : _normalize acc = r := Option.some.inj (h1.symm.trans h)
  rw [← hr, toPoly_normalize, hp]

/-- Whenever both `P * (Q + R)` and `P * Q + P * R` are defined, they denote the same
polynomial: the first is the second with its trailing zero coefficients removed. -/
theorem distributivity_up_to_normalize [DecidableEq α] (P Q R L T : List α)
    (hL : (__polynomial_add Q R).bind (fun s => __polynomial_mul P s) = some L)
    (hT : (__polynomial_mul P Q).bind (fun a =>
      (__polynomial_mul P R).bind (fun b => __polynomial_add a b)) = some T) :
    _normalize T = L := by
  obtain ⟨s, hs, hL1⟩ := Option.bind_eq_some.mp hL
  obtain ⟨a, ha, hT1⟩ := Option.bind_eq_some.mp hT
  obtain ⟨b, hb, hT2⟩ := Option.bind_eq_some.mp hT1
  apply toPoly_injective (normalized_normalize T) (mul_result_normalized P s L hL1)
  rw [toPoly_normalize, toPoly_add hT2, toPoly_mul ha, toPoly_mul hb, toPoly_mul hL1,
    toPoly_add hs, mul_add]

/-- For operands of non-decreasing length `__polynomial_add` is associative structurally. -/
theorem add_assoc_of_length_le (P Q R : List α) (h1 : P.length ≤ Q.length)
    (h2 : Q.length ≤ R.length) :
    ∃ S, (__polynomial_add P Q).bind (fun s => __polynomial_add s R) = some S ∧
      (__polynomial_add Q R).bind (fun t => __polynomial_add P t) = some S := by
  obtain ⟨s, hs, hslen, _⟩ := add_spec P Q h1
  obtain ⟨S, hS, hSlen, _⟩ := add_spec s R (by omega)
  obtain ⟨t, ht, htlen, _⟩ := add_spec Q R h2
  obtain ⟨S2, hS2, hS2len, _⟩ := add_spec P t (by omega)
  have hSS : S2 = S := by
    apply list_ext_coeff (by omega)
    apply coeff_eq_of_toPoly_eq
    rw [toPoly_add hS2, toPoly_add ht, toPoly_add hS, toPoly_add hs, add_assoc]
  refine ⟨S, ?_, ?_⟩
  · rw [hs]
    exact hS
  · rw [ht, ← hSS]
    exact hS2

end RingIdentities

section EvaluateSpec

variable [CommSemiring α]

/-- The accumulation loop of `Polynomial::operator()`, started from `(res, xpow) = (r, w)`. -/
theorem evaluate_foldl (l : List α) (x r w : α) :
    l.foldl (fun (st : α × α) a => (st.1 + a * st.2, st.2 * x)) (r, w) =
      (r + ∑ i ∈ Finset.range l.length, coeff l i * (w * x ^ i), w * x ^ l.length) := by
  induction l generalizing r w with
  | nil => simp
  | cons a l ih =>
    rw [List.foldl_cons, ih, List.length_cons, Finset.sum_range_succ']
    have h0 : coeff (a :: l) 0 = a := rfl
    have hs : ∀ i, coeff (a :: l) (i + 1) = coeff l i := fun i => rfl
    simp only [h0, hs, pow_zero, mul_one, pow_succ]
    congr 1
    · rw [add_assoc, add_comm (a * w)]
      congr 2
      apply Finset.sum_congr rfl
      intro i _
      ring
    · ring

theorem sum_zero_pow (P : List α) (hP : P ≠ []) :
    ∑ i ∈ Finset.range P.length, coeff P i * (0 : α) ^ i = coeff P 0 := by
  obtain ⟨n, hn⟩ : ∃ n, P.length = n + 1 :=
    ⟨P.length - 1, by have := List.length_pos.mpr hP; omega⟩
  rw [hn, Finset.sum_range_succ']
  simp

/-- C14: for a non-empty coefficient sequence `P = (a_0 .. a_n)` and every scalar `x`,
`Polynomial::operator()` returns the sum over `i = 0 .. n` of `a_i * x^i`; at `x = 0` the
shortcut branch returns `a_0`, which is that same sum. -/
theorem evaluate_eq_sum [DecidableEq α] (P : List α) (x : α) (hP : P ≠ []) :
    Evaluate P x = some (∑ i ∈ Finset.range P.length, coeff P i * x ^ i) ∧
      Evaluate P 0 = some (coeff P 0) ∧
      ∑ i ∈ Finset.range P.length, coeff P i * (0 : α) ^ i = coeff P 0 := by
  have hlen : 0 < P.length := List.length_pos.mpr hP
  have h0 : Evaluate P 0 = some (coeff P 0) := by
    unfold Evaluate
    rw [if_pos rfl, getElem?_of_lt_coeff hlen]
    simp
  refine ⟨?_, h0, sum_zero_pow P hP⟩
  by_cases hx : x = 0
  · rw [hx, h0, sum_zero_pow P hP]
  · unfold Evaluate
    rw [if_neg hx, evaluate_foldl]
    simp

/-- Scenario A's evaluation through `evaluate_eq_sum`: `1 + x^2` at `x = 3` is `10`, and
at `x = 0` it is the constant term `1`. -/
theorem evaluate_eq_sum_witness :
    Evaluate ([1, 0, 1] : List ℚ) 3 = some 10 ∧ Evaluate ([1, 0, 1] : List ℚ) 0 = some 1 ∧
      Evaluate ([1, 0, 1] : List ℚ) 3 =
        some (∑ i ∈ Finset.range ([1, 0, 1] : List ℚ).length,
          coeff ([1, 0, 1] : List ℚ) i * 3 ^ i) :=
  ⟨by decide!, by decide!, (evaluate_eq_sum ([1, 0, 1] : List ℚ) 3 (by decide)).1⟩

end EvaluateSpec

section Derivative

/-- The loop of `GetFormalDerivative` after `t` iterations on a buffer of `n` zeros. -/
theorem derivative_loop [Zero α] [Mul α] [NatCast α] (p : List α) (n : Nat)
    (hn : n + 1 ≤ p.length) (t : Nat) (ht : t ≤ n) :
    ∃ res, (List.range t).foldlM (fun res i => do
        let a ← p[i + 1]?
        if i < res.length then some (res.set i (a * ((i + 1 : Nat) : α))) else none)
        (List.replicate n (0 : α)) = some res ∧
      res.length = n ∧
      ∀ k, coeff res k = if k < t then coeff p (k + 1) * ((k + 1 : Nat) : α) else 0 := by
  induction t with
  | zero =>
    refine ⟨List.replicate n 0, by simp, by simp, ?_⟩
    intro k
    simp only [coeff_def, List.getElem?_replicate]
    split <;> simp
  | succ t ih =>
    obtain ⟨res, h1, hlen, hco⟩ := ih (by omega)
    refine ⟨res.set t (coeff p (t + 1) * ((t + 1 : Nat) : α)), ?_, by simp [hlen], ?_⟩
    · rw [foldlM_range_succ _ _ t, h1]
      simp [getElem?_of_lt_coeff (by omega : t + 1 < p.length), hlen, (by omega : t < n)]
    · intro k
      rw [coeff_set _ _ _ _ (by omega)]
      by_cases hk : k = t
      · subst hk
        rw [if_pos rfl, if_pos (by omega)]
      · rw [if_neg hk, hco]
        by_cases hk2 : k < t
        · rw [if_pos hk2, if_pos (by omega)]
        · rw [if_neg hk2, if_neg (by omega)]

/-- C16: for `P = (a_0 .. a_n)` with `n >= 1`, `GetFormalDerivative` returns a sequence of
exactly `n` coefficients whose entry at index `i` is `(i + 1) * a_(i+1)`. -/
theorem derivative_coefficients [CommSemiring α] [DecidableEq α] (P : List α)
    (hP : 2 ≤ P.length) :
    ∃ d, GetFormalDerivative P = some d ∧ d.length = P.length - 1 ∧
      ∀ i, i < P.length - 1 → coeff d i = ((i + 1 : Nat) : α) * coeff P (i + 1) := by
  obtain ⟨res, h1, hlen, hco⟩ := derivative_loop P (P.length - 1) (by omega) (P.length - 1)
    le_rfl
  refine ⟨res, ?_, hlen, ?_⟩
  · unfold GetFormalDerivative
    rw [if_neg (by omega)]
    exact h1
  · intro i hi
    rw [hco, if_pos hi, mul_comm]

/-- The derivative of `x^n` is `n * x^(n-1)` for `n = 1 .. 5`, the first of them also
through `derivative_coefficients`. -/
theorem derivative_coefficients_witness :
    (GetFormalDerivative ([0, 1] : List ℚ) = some [1] ∧
      GetFormalDerivative ([0, 0, 1] : List ℚ) = some [0, 2] ∧
      GetFormalDerivative ([0, 0, 0, 1] : List ℚ) = some [0, 0, 3] ∧
      GetFormalDerivative ([0, 0, 0, 0, 1] : List ℚ) = some [0, 0, 0, 4] ∧
      GetFormalDerivative ([0, 0, 0, 0, 0, 1] : List ℚ) = some [0, 0, 0, 0, 5]) ∧
    ∃ d, GetFormalDerivative ([0, 0, 1] : List ℚ) = some d ∧
      d.length = ([0, 0, 1] : List ℚ).length - 1 ∧
      ∀ i, i < ([0, 0, 1] : List ℚ).length - 1 →
        coeff d i = ((i + 1 : Nat) : ℚ) * coeff ([0, 0, 1] : List ℚ) (i + 1) :=
  ⟨by decide!, derivative_coefficients ([0, 0, 1] : List ℚ) (by decide)⟩

/-- C17 (amended): for every polynomial with at most one coefficient `GetFormalDerivative`
returns the zero polynomial as the empty coefficient sequence: the list `{T(0)}` goes
through the initializer-list constructor, whose `_normalize` erases the single `0`. -/
theorem derivative_of_constant [Zero α] [Mul α] [NatCast α] [DecidableEq α] (P : List α)
    (hP : P.length ≤ 1) : GetFormalDerivative P = some [] := by
  unfold GetFormalDerivative
  rw [if_pos hP]
  have : _normalize ([] ++ [(0 : α)]) = [] := by
    rw [normalize_concat, if_pos rfl, normalize_nil]
  exact congrArg some this

/-- Instance of `derivative_of_constant` at the constant polynomial `[5]`. -/
theorem derivative_of_constant_witness : GetFormalDerivative ([5] : List ℚ) = some [] :=
  derivative_of_constant ([5] : List ℚ) (by decide)

/-- C17 (as stated) fails: the derivative of the constant `[5]`, and of the empty
polynomial, is the empty sequence and not the one-element sequence `[0]`. -/
theorem derivative_of_constant_not_singleton :
    GetFormalDerivative ([5] : List ℚ) = some [] ∧
      GetFormalDerivative ([5] : List ℚ) ≠ some [0] ∧
      GetFormalDerivative ([] : List ℚ) ≠ some [0] := by
  decide!

end Derivative

section ScalarOps

/-- C15: when `Degree P < Degree Q`, `__polynomial_div P Q` returns the empty quotient and
the dividend `P` itself as remainder. -/
theorem div_early_return [Zero α] [Sub α] [Mul α] [Div α] [DecidableEq α] (P Q : List α)
    (h : Degree P < Degree Q) : __polynomial_div P Q = some ([], P) := by
  unfold __polynomial_div
  rw [if_pos h]

/-- Instance of `div_early_return`: `[3, 0]` (not normalized, degree 1) divided by
`[1, 2, 1]` comes back unchanged, trailing zero included. -/
theorem div_early_return_witness :
    Degree ([3, 0] : List ℚ) < Degree ([1, 2, 1] : List ℚ) ∧
      __polynomial_div ([3, 0] : List ℚ) [1, 2, 1] = some ([], [3, 0]) :=
  ⟨by decide, div_early_return ([3, 0] : List ℚ) [1, 2, 1] (by decide)⟩

theorem coeff_map [Zero α] (f : α → α) (p : List α) (i : Nat) (hi : i < p.length) :
    coeff (p.map f) i = f (coeff p i) := by
  simp [coeff_def, List.getElem?_eq_getElem hi]

/-- Scaling by an independent scalar `c` (not stored in `P`): `P * c` is the empty sequence
when `c = 0` and otherwise has `P`'s length with `a_i * c` at every index `i`; `P / c` has
`P`'s length with `a_i / c` at every index. -/
theorem scalar_mul_div [Field α] [DecidableEq α] (P : List α) (c : α) :
    (c = 0 → __polynomial_mul_scalar P c = []) ∧
    (c ≠ 0 → (__polynomial_mul_scalar P c).length = P.length ∧
      ∀ i, i < P.length → coeff (__polynomial_mul_scalar P c) i = coeff P i * c) ∧
    ((div_scalar P c).length = P.length ∧
      ∀ i, i < P.length → coeff (div_scalar P c) i = coeff P i / c) := by
  refine ⟨?_, ?_, ?_, ?_⟩
  · intro h
    unfold __polynomial_mul_scalar
    rw [if_pos h]
  · intro h
    unfold __polynomial_mul_scalar
    rw [if_neg h]
    exact ⟨List.length_map _ _, fun i hi => coeff_map _ P i hi⟩
  · exact List.length_map _ _
  · exact fun i hi => coeff_map _ P i hi

/-- Instance of `scalar_mul_div` at `P = [2, 4]`: the values for `c = 2` and the cleared
product for `c = 0`. -/
theorem scalar_mul_div_witness :
    __polynomial_mul_scalar ([2, 4] : List ℚ) 2 = [4, 8] ∧
      div_scalar ([2, 4] : List ℚ) 2 = [1, 2] ∧
      __polynomial_mul_scalar ([2, 4] : List ℚ) 0 = [] :=
  ⟨by decide!, by decide!, (scalar_mul_div ([2, 4] : List ℚ) 0).1 rfl⟩

/-- C19 (amended): `P + b` is `P` with `b` added to the constant term (or `[b]` for the
empty `P`), followed by `_normalize`. The result is normalized, holds `a_0 + b` at index 0
and `a_k` at every index `k >= 1`; it is `P` changed at index 0 only when `P` is normalized
and has at least two coefficients or `a_0 + b` is non-zero; for the empty `P` it is `[b]`
when `b` is non-zero and empty when `b = 0`. -/
theorem add_scalar_spec [AddMonoid α] [DecidableEq α] (P : List α) (b : α) :
    Normalized (__polynomial_add_scalar P b) ∧
    coeff (__polynomial_add_scalar P b) 0 = coeff P 0 + b ∧
    (∀ k, 1 ≤ k → coeff (__polynomial_add_scalar P b) k = coeff P k) ∧
    (P ≠ [] → Normalized P → (2 ≤ P.length ∨ coeff P 0 + b ≠ 0) →
      __polynomial_add_scalar P b = P.set 0 (coeff P 0 + b)) ∧
    (P = [] → __polynomial_add_scalar P b = if b = 0 then [] else [b]) := by
  refine ⟨add_scalar_normalized P b, ?_, ?_, ?_, ?_⟩
  · cases P with
    | nil =>
      show coeff (_normalize [b]) 0 = _
      rw [coeff_normalize]
      simp [coeff]
    | cons a rest =>
      show coeff (_normalize ((a + b) :: rest)) 0 = _
      rw [coeff_normalize]
      rfl
  · intro k hk
    obtain ⟨j, rfl⟩ : ∃ j, k = j + 1 := ⟨k - 1, by omega⟩
    cases P with
    | nil =>
      show coeff (_normalize [b]) (j + 1) = _
      rw [coeff_normalize]
      rfl
    | cons a rest =>
      show coeff (_normalize ((a + b) :: rest)) (j + 1) = _
      rw [coeff_normalize]
      rfl
  · intro hne hn h
    cases P with
    | nil => exact absurd rfl hne
    | cons a rest =>
      have hc : coeff (a :: rest) 0 = a := rfl
      rw [hc] at h ⊢
      show _normalize ((a + b) :: rest) = (a + b) :: rest
      apply normalize_of_normalized
      cases rest with
      | nil =>
        have hab : a + b ≠ 0 := by
          rcases h with h | h
          · simp at h
          · exact h
        simpa [Normalized] using hab
      | cons a1 rest1 =>
        intro x hx
        apply hn x
        simpa [List.getLast?_cons_cons] using hx
  · intro h
    subst h
    show _normalize ([] ++ [b]) = _
    rw [normalize_concat, normalize_nil]
    rfl

/-- Instance of `add_scalar_spec`: adding `-1` to `[1, 0, 2]` changes only the constant
term, and the result is `[0, 0, 2]`. -/
theorem add_scalar_spec_witness :
    __polynomial_add_scalar ([1, 0, 2] : List ℚ) (-1) = [0, 0, 2] ∧
      __polynomial_add_scalar ([1, 0, 2] : List ℚ) (-1) =
        ([1, 0, 2] : List ℚ).set 0 (coeff ([1, 0, 2] : List ℚ) 0 + (-1)) :=
  ⟨by decide!, (add_scalar_spec ([1, 0, 2] : List ℚ) (-1)).2.2.2.1 (by decide) (by decide)
    (Or.inl (by decide))⟩

/-- C19 (as stated) fails: `[1] + (-1)` is the empty sequence, not a sequence of length 1
holding `0`, and the empty polynomial plus `0` is the empty sequence, not `[0]`. -/
theorem add_scalar_result_is_normalized_away :
    __polynomial_add_scalar ([1] : List ℚ) (-1) = [] ∧
      (__polynomial_add_scalar ([1] : List ℚ) (-1)).length ≠ ([1] : List ℚ).length ∧
      __polynomial_add_scalar ([] : List ℚ) 0 ≠ [0] := by
  decide!

end ScalarOps

section Nodes

/-- C20: `CreateEquidistantNodes` fails with its `logic_error` exactly when `n < 2`,
whatever `f`, `start_point` and `end_point` are. -/
theorem createEquidistantNodes_fails_iff [NatCast α] [Add α] [Sub α] [Mul α] [Div α]
    (f : α → α) (start_point end_point : α) (n : Nat) :
    (∃ msg, CreateEquidistantNodes f start_point end_point n = Except.error msg) ↔ n < 2 := by
  unfold CreateEquidistantNodes
  constructor
  · intro h
    by_contra hn
    rw [if_neg hn] at h
    obtain ⟨msg, hmsg⟩ := h
    exact Except.noConfusion hmsg
  · intro hn
    rw [if_pos hn]
    exact ⟨_, rfl⟩

/-- Scenario B through `createEquidistantNodes_fails_iff`: one node on `[0, 1]` fails, two
nodes do not. -/
theorem createEquidistantNodes_fails_iff_witness :
    (∃ msg, CreateEquidistantNodes (fun x : ℚ => x) 0 1 1 = Except.error msg) ∧
      ¬ ∃ msg, CreateEquidistantNodes (fun x : ℚ => x) 0 1 2 = Except.error msg :=
  ⟨(createEquidistantNodes_fails_iff (fun x : ℚ => x) 0 1 1).mpr (by decide),
    fun h => absurd ((createEquidistantNodes_fails_iff (fun x : ℚ => x) 0 1 2).mp h)
      (by decide)⟩

end Nodes

section RingIdentityDefects

/-- C12: at `P = [1, 1]`, `Q = [1, 1]`, `R = [1, -1]` (normalized, integer coefficients)
`Q + R` is `[2, 0]` and `P * (Q + R)` is the normalized `[2, 2]`, while `P * Q + P * R` is
`[1, 2, 1] + [1, 0, -1] = [2, 2, 0]`, which `__polynomial_add` leaves with its trailing
zero: the two coefficient sequences differ. -/
theorem distributivity_structural_mismatch :
    (Normalized ([1, 1] : List ℤ) ∧ Normalized ([1, -1] : List ℤ)) ∧
      __polynomial_add ([1, 1] : List ℤ) [1, -1] = some [2, 0] ∧
      (__polynomial_add ([1, 1] : List ℤ) [1, -1]).bind
        (fun s => __polynomial_mul [1, 1] s) = some [2, 2] ∧
      __polynomial_mul ([1, 1] : List ℤ) [1, 1] = some [1, 2, 1] ∧
      __polynomial_mul ([1, 1] : List ℤ) [1, -1] = some [1, 0, -1] ∧
      (__polynomial_mul ([1, 1] : List ℤ) [1, 1]).bind (fun a =>
        (__polynomial_mul [1, 1] [1, -1]).bind (fun b => __polynomial_add a b)) =
          some [2, 2, 0] ∧
      ([2, 2] : List ℤ) ≠ [2, 2, 0] := by
  decide!

/-- C13: at `P = [1, 2]`, `Q = [1]`, `R = [1, 1]` (normalized, integer coefficients) the
left side `(P + Q) + R` accesses `Q.Coefficients[1]` out of range in `P + Q`, while the
right side `P + (Q + R)` is `[1, 2] + [2, 1] = [3, 3]`. -/
theorem add_assoc_out_of_range :
    (Normalized ([1, 2] : List ℤ) ∧ Normalized ([1] : List ℤ) ∧
      Normalized ([1, 1] : List ℤ)) ∧
      __polynomial_add ([1, 2] : List ℤ) [1] = none ∧
      (__polynomial_add ([1, 2] : List ℤ) [1]).bind
        (fun s => __polynomial_add s [1, 1]) = none ∧
      (__polynomial_add ([1] : List ℤ) [1, 1]).bind
        (fun t => __polynomial_add [1, 2] t) = some [3, 3] := by
  decide!

end RingIdentityDefects
section UInt128

/-- The sibling `operator+=` is addition modulo `2^128`: its carry test compares the wrapped
low word with `b`'s low word, which detects the overflow exactly. -/
theorem uint128_add_assign_toNat (a b : uint128_t) (ha : a._Lo < 2 ^ 64)
    (hb : b._Lo < 2 ^ 64) :
    (a.add_assign b).toNat = (a.toNat + b.toNat) % 2 ^ 128 := by
  unfold uint128_t.add_assign uint128_t.toNat
  simp only []
  split <;> omega

/-- C24: `5 - 1` computed by `operator-` is `2^128 - 2^64 + 4` instead of `4`: the low
words give `4`, and the borrow test `4 > 1` subtracts one from the high word although
`a`'s low word `5` is not smaller than `b`'s low word `1`. Conversely `2^64 - 2^63` keeps
the high word `1`, because the test `2^63 > 2^63` misses the borrow. -/
theorem uint128_sub_wrong_borrow :
    (uint128_t.sub ⟨0, 5⟩ ⟨0, 1⟩ = ⟨2 ^ 64 - 1, 4⟩ ∧
      (uint128_t.sub ⟨0, 5⟩ ⟨0, 1⟩).toNat = 2 ^ 128 - 2 ^ 64 + 4 ∧
      ((⟨0, 5⟩ : uint128_t).toNat + (2 ^ 128 - (⟨0, 1⟩ : uint128_t).toNat)) % 2 ^ 128 = 4) ∧
    (uint128_t.sub ⟨1, 0⟩ ⟨0, 2 ^ 63⟩ = ⟨1, 2 ^ 63⟩ ∧
      ((⟨1, 0⟩ : uint128_t).toNat + (2 ^ 128 - (⟨0, 2 ^ 63⟩ : uint128_t).toNat)) % 2 ^ 128
        = 2 ^ 63) := by
  decide

end UInt128

section RawAdd

/-- C25: for `P` and `Q` of the same length `n >= 1` whose last coefficients sum to `0`
(normalized ones in particular), `__polynomial_add` returns a sequence of length `n` whose
last coefficient is `0`: the result is not normalized. -/
theorem add_keeps_trailing_zero [AddMonoid α] (P Q : List α) (hlen : P.length = Q.length)
    (hn : 1 ≤ P.length)
    (hsum : coeff P (P.length - 1) + coeff Q (P.length - 1) = 0) :
    ∃ r, __polynomial_add P Q = some r ∧ r.length = P.length ∧
      coeff r (P.length - 1) = 0 ∧ ¬ Normalized r := by
  obtain ⟨r, hr, hrlen, hco⟩ := add_spec P Q (le_of_eq hlen)
  have h0 : coeff r (P.length - 1) = 0 := by
    rw [hco _ (by omega)]
    exact hsum
  refine ⟨r, hr, by omega, h0, ?_⟩
  intro hnorm
  have hne : r ≠ [] := by
    intro h
    rw [h] at hrlen
    simp at hrlen
    omega
  have := normalized_coeff_last hnorm hne
  rw [hrlen, ← hlen] at this
  exact this h0

/-- Instance of `add_keeps_trailing_zero`: `(1 + x) + (1 - x)` is returned as `[2, 0]`. -/
theorem add_keeps_trailing_zero_witness :
    (Normalized ([1, 1] : List ℚ) ∧ Normalized ([1, -1] : List ℚ)) ∧
      __polynomial_add ([1, 1] : List ℚ) [1, -1] = some [2, 0] ∧
      ∃ r, __polynomial_add ([1, 1] : List ℚ) [1, -1] = some r ∧
        r.length = ([1, 1] : List ℚ).length ∧
        coeff r (([1, 1] : List ℚ).length - 1) = 0 ∧ ¬ Normalized r :=
  ⟨by decide, by decide!,
    add_keeps_trailing_zero ([1, 1] : List ℚ) [1, -1] (by decide) (by decide) (by decide!)⟩

end RawAdd

section EvaluateEmpty

/-- C26: on the empty coefficient sequence the shortcut branch for `x = 0` accesses
`Coefficients[0]`, which does not exist, while for every `x` other than `0` the loop
branch returns `0`. -/
theorem evaluate_empty_at_zero_out_of_range :
    Evaluate ([] : List ℚ) 0 = none ∧ ∀ x : ℚ, x ≠ 0 → Evaluate ([] : List ℚ) x = some 0 := by
  refine ⟨by decide!, ?_⟩
  intro x hx
  unfold Evaluate
  rw [if_neg hx]
  rfl

end EvaluateEmpty

section Determinant

/-- C28: `Det` of the 2 x 2 identity matrix is `-1`, not `1`: for `j = 0` the pivot search
stops at `i = j = 0`, exchanges row 0 with itself and still multiplies `sgn` by `-1`. The
same sign error gives `Det [[1, 2], [3, 4]] = 2` for the determinant `-2`; a genuine
exchange (`[[0, 1], [1, 0]]`) and the sizes 1 and 3 come out right. -/
theorem det_identity_two_wrong_sign :
    Det 2 ([[1, 0], [0, 1]] : List (List ℚ)) = -1 ∧
      Matrix.det (1 : Matrix (Fin 2) (Fin 2) ℚ) = 1 ∧
      Det 2 ([[1, 2], [3, 4]] : List (List ℚ)) = 2 ∧
      Matrix.det !![(1 : ℚ), 2; 3, 4] = -2 ∧
      Det 2 ([[0, 1], [1, 0]] : List (List ℚ)) = -1 ∧
      Det 1 ([[7]] : List (List ℚ)) = 7 ∧
      Det 3 ([[1, 0, 0], [0, 1, 0], [0, 0, 1]] : List (List ℚ)) = 1 := by
  refine ⟨by decide!, Matrix.det_one, by decide!, ?_, by decide!, by decide!, by decide!⟩
  rw [Matrix.det_fin_two_of]
  norm_num

end Determinant

section EquidistantNodes

theorem nodes_getElem? [NatCast α] [Add α] [Sub α] [Mul α] [Div α] (f : α → α) (s e : α)
    (n : Nat) (hn : 2 ≤ n) :
    ∃ pts, CreateEquidistantNodes f s e n = Except.ok pts ∧ pts.length = n ∧
      ∀ k, k < n → pts[k]? = some (s + (k : α) * ((e - s) / ((n - 1 : Nat) : α)),
        f (s + (k : α) * ((e - s) / ((n - 1 : Nat) : α)))) := by
  refine ⟨(List.range n).map (fun (k : Nat) =>
    (s + (k : α) * ((e - s) / ((n - 1 : Nat) : α)),
      f (s + (k : α) * ((e - s) / ((n - 1 : Nat) : α))))), ?_, by simp, ?_⟩
  · unfold CreateEquidistantNodes
    rw [if_neg (by omega)]
  · intro k hk
    simp [List.getElem?_range hk]

theorem nodeX_of_getElem? [Zero α] {pts : List (α × α)} {k : Nat} {p : α × α}
    (h : pts[k]? = some p) : nodeX pts k = p.1 := by
  simp [nodeX, h]

/-- C21: for `n >= 2`, `CreateEquidistantNodes` returns exactly `n` points, the `k`-th
being `(x_k, f x_k)` with `x_k = start + k * ((end - start) / (n - 1))`; in exact
arithmetic (a field of characteristic zero) the first abscissa is `start` and the last
one is `end`. -/
theorem equidistant_nodes_spec [Field α] [CharZero α] (f : α → α) (s e : α) (n : Nat)
    (hn : 2 ≤ n) :
    ∃ pts, CreateEquidistantNodes f s e n = Except.ok pts ∧ pts.length = n ∧
      (∀ k, k < n → pts[k]? = some (s + (k : α) * ((e - s) / ((n - 1 : Nat) : α)),
        f (s + (k : α) * ((e - s) / ((n - 1 : Nat) : α))))) ∧
      nodeX pts 0 = s ∧ nodeX pts (n - 1) = e := by
  obtain ⟨pts, h1, h2, h3⟩ := nodes_getElem? f s e n hn
  refine ⟨pts, h1, h2, h3, ?_, ?_⟩
  · rw [nodeX_of_getElem? (h3 0 (by omega))]
    simp
  · rw [nodeX_of_getElem? (h3 (n - 1) (by omega))]
    have hne : ((n - 1 : Nat) : α) ≠ 0 := Nat.cast_ne_zero.mpr (by omega)
    show s + ((n - 1 : Nat) : α) * ((e - s) / ((n - 1 : Nat) : α)) = e
    rw [mul_div_cancel₀ _ hne]
    ring

/-- Instance of `equidistant_nodes_spec`: three nodes of `x^2 + 1` on `[0, 2]` are the
nodes of scenario A. -/
theorem equidistant_nodes_spec_witness :
    (CreateEquidistantNodes (fun x : ℚ => x * x + 1) 0 2 3).toOption =
        some [(0, 1), (1, 2), (2, 5)] ∧
      ∃ pts, CreateEquidistantNodes (fun x : ℚ => x * x + 1) 0 2 3 = Except.ok pts ∧
        pts.length = 3 ∧
        (∀ k : Nat, k < 3 → pts[k]? = some (0 + (k : ℚ) * ((2 - 0) / ((3 - 1 : Nat) : ℚ)),
          (fun x : ℚ => x * x + 1) (0 + (k : ℚ) * ((2 - 0) / ((3 - 1 : Nat) : ℚ))))) ∧
        nodeX pts 0 = 0 ∧ nodeX pts (3 - 1) = 2 :=
  ⟨by decide!, equidistant_nodes_spec (fun x : ℚ => x * x + 1) 0 2 3 (by decide)⟩

/-- C22: for `n >= 2` and `start < end` over an ordered field, the abscissae returned by
`CreateEquidistantNodes` are strictly ascending, neighbour to neighbour and hence along
the whole list, and so pairwise distinct. -/
theorem equidistant_nodes_ascending [LinearOrderedField α] (f : α → α) (s e : α) (n : Nat)
    (hn : 2 ≤ n) (hse : s < e) :
    ∃ pts, CreateEquidistantNodes f s e n = Except.ok pts ∧
      (∀ k, k + 1 < n → nodeX pts k < nodeX pts (k + 1)) ∧
      (pts.map Prod.fst).Pairwise (fun x y => x < y) ∧ (pts.map Prod.fst).Nodup := by
  have hd : 0 < (e - s) / ((n - 1 : Nat) : α) := by
    apply div_pos (sub_pos.mpr hse)
    exact Nat.cast_pos.mpr (by omega)
  have hpw : ((List.range n).map (fun (k : Nat) =>
      s + (k : α) * ((e - s) / ((n - 1 : Nat) : α)))).Pairwise (fun x y => x < y) := by
    rw [List.pairwise_map]
    apply List.Pairwise.imp _ (List.pairwise_lt_range n)
    intro a b hab
    have : (a : α) < (b : α) := Nat.cast_lt.mpr hab
    have := mul_lt_mul_of_pos_right this hd
    linarith
  refine ⟨(List.range n).map (fun (k : Nat) =>
    (s + (k : α) * ((e - s) / ((n - 1 : Nat) : α)),
      f (s + (k : α) * ((e - s) / ((n - 1 : Nat) : α))))), ?_, ?_, ?_, ?_⟩
  · unfold CreateEquidistantNodes
    rw [if_neg (by omega)]
  · intro k hk
    have h1 : ∀ j, j < n → nodeX ((List.range n).map (fun (k : Nat) =>
        (s + (k : α) * ((e - s) / ((n - 1 : Nat) : α)),
          f (s + (k : α) * ((e - s) / ((n - 1 : Nat) : α)))))) j =
        s + (j : α) * ((e - s) / ((n - 1 : Nat) : α)) := by
      intro j hj
      rw [nodeX_of_getElem? (p := (s + (j : α) * ((e - s) / ((n - 1 : Nat) : α)),
        f (s + (j : α) * ((e - s) / ((n - 1 : Nat) : α)))))]
      simp [List.getElem?_range hj]
    rw [h1 k (by omega), h1 (k + 1) hk]
    have : (k : α) < ((k + 1 : Nat) : α) := Nat.cast_lt.mpr (by omega)
    have := mul_lt_mul_of_pos_right this hd
    linarith
  · rw [List.map_map]
    exact hpw
  · rw [List.map_map]
    exact hpw.imp (fun h => ne_of_lt h)

/-- Instance of `equidistant_nodes_ascending`: three nodes on `[0, 2]`. -/
theorem equidistant_nodes_ascending_witness :
    ∃ pts, CreateEquidistantNodes (fun x : ℚ => x * x + 1) 0 2 3 = Except.ok pts ∧
      (∀ k, k + 1 < 3 → nodeX pts k < nodeX pts (k + 1)) ∧
      (pts.map Prod.fst).Pairwise (fun x y => x < y) ∧ (pts.map Prod.fst).Nodup :=
  equidistant_nodes_ascending (fun x : ℚ => x * x + 1) 0 2 3 (by decide) (by decide!)

end EquidistantNodes

section EvaluateMul

variable [CommSemiring α]

theorem sum_eq_eval (l : List α) (x : α) :
    ∑ i ∈ Finset.range l.length, coeff l i * x ^ i = Polynomial.eval x (toPoly l) := by
  induction l with
  | nil => simp [toPoly]
  | cons a l ih =>
    rw [List.length_cons, Finset.sum_range_succ']
    have h0 : coeff (a :: l) 0 = a := rfl
    have hs : ∀ i, coeff (a :: l) (i + 1) = coeff l i := fun i => rfl
    simp only [h0, hs, pow_zero, mul_one, toPoly, Polynomial.eval_add, Polynomial.eval_mul,
      Polynomial.eval_C, Polynomial.eval_X, ← ih, Finset.mul_sum]
    rw [add_comm]
    congr 1
    apply Finset.sum_congr rfl
    intro i _
    ring

/-- On a non-empty coefficient sequence `Polynomial::operator()` is evaluation of the
polynomial denoted, at `x = 0` (shortcut branch) as well as elsewhere (loop branch). -/
theorem evaluate_eq_eval [DecidableEq α] (P : List α) (x : α) (hP : P ≠ []) :
    Evaluate P x = some (Polynomial.eval x (toPoly P)) := by
  have hlen : 0 < P.length := List.length_pos.mpr hP
  unfold Evaluate
  by_cases hx : x = 0
  · rw [if_pos hx, getElem?_of_lt_coeff hlen, hx, ← Polynomial.coeff_zero_eq_eval_zero,
      coeff_toPoly]
    simp
  · rw [if_neg hx, evaluate_foldl, ← sum_eq_eval]
    simp

end EvaluateMul

section EvaluateMulClaim

variable [Field α] [DecidableEq α]

/-- Product of different objects (every call made by `operator*`): for non-zero normalized
`P` and `Q` over a field and every scalar `x`, the product `R` computed by
`__polynomial_mul` evaluates, through `Polynomial::operator()`, to the product of the
values of `P` and `Q` at `x`. -/
theorem evaluate_mul (P Q : List α) (x : α) (hP : P ≠ []) (hPn : Normalized P) (hQ : Q ≠ [])
    (hQn : Normalized Q) :
    ∃ R vP vQ, __polynomial_mul P Q = some R ∧ Evaluate P x = some vP ∧
      Evaluate Q x = some vQ ∧ Evaluate R x = some (vP * vQ) := by
  obtain ⟨R, hR, hlen, _, hpoly⟩ := mul_spec_normalized P Q hP hPn hQ hQn
  have hR0 : R ≠ [] := by
    intro h
    rw [h] at hlen
    simp at hlen
  refine ⟨R, _, _, hR, evaluate_eq_eval P x hP, evaluate_eq_eval Q x hQ, ?_⟩
  rw [evaluate_eq_eval R x hR0, hpoly, Polynomial.eval_mul]

/-- Instance of `evaluate_mul`: `(1 + x)(-1 + x)` at `x = 3` is `4 * 2 = 8`, and at `x = 0`
it is `1 * (-1) = -1`. -/
theorem evaluate_mul_witness :
    (__polynomial_mul ([1, 1] : List ℚ) [-1, 1] = some [-1, 0, 1] ∧
      Evaluate ([1, 1] : List ℚ) 3 = some 4 ∧ Evaluate ([-1, 1] : List ℚ) 3 = some 2 ∧
      Evaluate ([-1, 0, 1] : List ℚ) 3 = some 8 ∧
      Evaluate ([-1, 0, 1] : List ℚ) 0 = some (-1)) ∧
    ∃ R vP vQ, __polynomial_mul ([1, 1] : List ℚ) [-1, 1] = some R ∧
      Evaluate ([1, 1] : List ℚ) 3 = some vP ∧ Evaluate ([-1, 1] : List ℚ) 3 = some vQ ∧
      Evaluate R 3 = some (vP * vQ) :=
  ⟨by decide!, evaluate_mul ([1, 1] : List ℚ) [-1, 1] 3 (by decide) (by decide) (by decide)
    (by decide)⟩

end EvaluateMulClaim

section Barycentric

/-- A counted loop whose body succeeds on every state satisfying an invariant succeeds. -/
theorem foldlM_range_some {σ : Type u} (f : σ → Nat → Option σ) (I : σ → Prop) (n : Nat)
    (hf : ∀ s i, i < n → I s → ∃ s', f s i = some s' ∧ I s') (init : σ) (h0 : I init) :
    ∃ r, (List.range n).foldlM f init = some r ∧ I r := by
  have key : ∀ m, m ≤ n → ∃ r, (List.range m).foldlM f init = some r ∧ I r := by
    intro m
    induction m with
    | zero => exact fun _ => ⟨init, by simp, h0⟩
    | succ m ih =>
      intro hm
      obtain ⟨r, hr, hI⟩ := ih (by omega)
      obtain ⟨r2, hr2, hI2⟩ := hf r m (by omega) hI
      exact ⟨r2, by rw [foldlM_range_succ, hr]; exact hr2, hI2⟩
  exact key n le_rfl

theorem points_getElem? [Zero α] (points : List (α × α)) (i : Nat) (hi : i < points.length) :
    points[i]? = some (points.getD i (0, 0)) := by
  simp [List.getElem?_eq_getElem hi, List.getD_eq_getElem _ _ hi]

variable [Field α]

/-- The inner weight loop for node `i`: after `t` iterations `weights[i]` has been divided
by `x_i - x_j` for every `j < t` other than `i`, and no other entry has changed. -/
theorem weight_inner_loop (points : List (α × α)) (i : Nat) (hi : i < points.length)
    (w : List α) (hw : w.length = points.length) (t : Nat) (ht : t ≤ points.length) :
    ∃ w1, (List.range t).foldlM (fun w j =>
        if i = j then pure w
        else do
          let wi ← w[i]?
          let pi ← points[i]?
          let pj ← points[j]?
          pure (w.set i (wi / (pi.1 - pj.1)))) w = some w1 ∧
      w1.length = points.length ∧
      coeff w1 i = coeff w i /
        ∏ j ∈ (Finset.range t).erase i, (nodeX points i - nodeX points j) ∧
      ∀ k, k ≠ i → coeff w1 k = coeff w k := by
  induction t with
  | zero => exact ⟨w, by simp, hw, by simp, fun _ _ => rfl⟩
  | succ t ih =>
    obtain ⟨w1, h1, hlen, hci, hck⟩ := ih (by omega)
    by_cases hit : i = t
    · refine ⟨w1, ?_, hlen, ?_, hck⟩
      · rw [foldlM_range_succ, h1]
        simp [hit]
      · rw [hci, Finset.range_succ, ← hit, Finset.erase_insert (by simp),
          Finset.erase_eq_of_not_mem (by simp)]
    · refine ⟨w1.set i (coeff w1 i / (nodeX points i - nodeX points t)), ?_, by simp [hlen],
        ?_, ?_⟩
      · rw [foldlM_range_succ, h1]
        simp only [Option.some_bind, if_neg hit]
        rw [getElem?_of_lt_coeff (by omega : i < w1.length), points_getElem? points i hi,
          points_getElem? points t (by omega)]
        rfl
      · rw [coeff_set _ _ _ _ (by omega), if_pos rfl, hci, Finset.range_succ,
          Finset.erase_insert_of_ne (fun h => hit h.symm),
          Finset.prod_insert (by simp), div_div, mul_comm]
      · intro k hk
        rw [coeff_set _ _ _ _ (by omega), if_neg hk, hck k hk]

/-- The two nested weight loops of the first call: every weight becomes
`1 / prod over j != i of (x_i - x_j)`. -/
theorem weight_outer_loop (points : List (α × α)) (t : Nat) (ht : t ≤ points.length) :
    ∃ w, (List.range t).foldlM (fun w i =>
        (List.range points.length).foldlM (fun w j =>
          if i = j then pure w
          else do
            let wi ← w[i]?
            let pi ← points[i]?
            let pj ← points[j]?
            pure (w.set i (wi / (pi.1 - pj.1)))) w)
        ((List.replicate points.length (0 : α)).map (fun _ => (1 : α))) = some w ∧
      w.length = points.length ∧
      ∀ k, k < points.length → coeff w k =
        if k < t then
          1 / ∏ j ∈ (Finset.range points.length).erase k, (nodeX points k - nodeX points j)
        else 1 := by
  induction t with
  | zero =>
    refine ⟨_, by simp; rfl, by simp, ?_⟩
    intro k hk
    simp [coeff_def, List.getElem?_replicate, hk]
  | succ t ih =>
    obtain ⟨w, h1, hlen, hco⟩ := ih (by omega)
    obtain ⟨w1, h2, hlen1, hci, hck⟩ :=
      weight_inner_loop points t (by omega) w hlen points.length le_rfl
    refine ⟨w1, ?_, hlen1, ?_⟩
    · rw [foldlM_range_succ, h1]
      exact h2
    · intro k hk
      by_cases hkt : k = t
      · subst hkt
        rw [if_pos (by omega), hci, hco k hk, if_neg (by omega)]
      · rw [hck k hkt, hco k hk]
        by_cases hk2 : k < t
        · rw [if_pos hk2, if_pos (by omega)]
        · rw [if_neg hk2, if_neg (by omega)]

/-- The weight computation of the first call on a freshly created evaluator. -/
theorem precompute_create (points : List (α × α)) :
    ∃ w, (CreateBarycentricInterpolator points).precompute =
        some { weights := w, cp_points := points, precomputed_weights := true } ∧
      w.length = points.length ∧
      ∀ i, i < points.length → coeff w i =
        1 / ∏ j ∈ (Finset.range points.length).erase i, (nodeX points i - nodeX points j) := by
  obtain ⟨w, h1, hlen, hco⟩ := weight_outer_loop points points.length le_rfl
  refine ⟨w, ?_, hlen, ?_⟩
  · unfold BarycentricState.precompute CreateBarycentricInterpolator
    simp only [Bool.false_eq_true, if_false]
    rw [h1]
    rfl
  · intro i hi
    rw [hco i hi, if_pos hi]

/-- Once the weights are computed, a call evaluates with the stored weights and hands the
state back unchanged. -/
theorem call_of_precomputed (s : BarycentricState α) (hp : s.precomputed_weights = true)
    (hw : s.weights.length = s.cp_points.length) (y : α) :
    ∃ v, s.call y = some (v, s) := by
  obtain ⟨nd, hnd, _⟩ := foldlM_range_some (fun (nd : α × α) i => do
      let wi ← s.weights[i]?
      let pi ← s.cp_points[i]?
      let holder := wi / (y - pi.1)
      pure (nd.1 + holder * pi.2, nd.2 + holder)) (fun _ => True) s.cp_points.length
    (by
      intro st i hi _
      dsimp only
      rw [getElem?_of_lt_coeff (by omega : i < s.weights.length),
        points_getElem? s.cp_points i hi]
      exact ⟨_, rfl, trivial⟩) (0, 0) trivial
  refine ⟨nd.1 / nd.2, ?_⟩
  have hpre : s.precompute = some s := by
    unfold BarycentricState.precompute
    rw [if_pos hp]
  unfold BarycentricState.call
  rw [hpre]
  simp only [Option.bind_eq_bind, Option.some_bind, Option.pure_def] at hnd ⊢
  rw [hnd]
  rfl

/-- C23: the first call on the evaluator created from `points` (pairwise distinct
abscissae) returns a value `v` and leaves the state `s1` with the ready flag set, the
points as captured and `weights[i] = 1 / prod over j != i of (x_i - x_j)` for every node;
a later call with the same query returns the same `v`, and every later call, whatever its
query, hands back the state `s1` unchanged. -/
theorem barycentric_state (points : List (α × α)) (x : α)
    (_hx : (points.map Prod.fst).Nodup) :
    ∃ v s1, (CreateBarycentricInterpolator points).call x = some (v, s1) ∧
      s1.precomputed_weights = true ∧ s1.cp_points = points ∧
      s1.weights.length = points.length ∧
      (∀ i, i < points.length → coeff s1.weights i =
        1 / ∏ j ∈ (Finset.range points.length).erase i,
          (nodeX points i - nodeX points j)) ∧
      s1.call x = some (v, s1) ∧
      ∀ y, ∃ v1, s1.call y = some (v1, s1) := by
  obtain ⟨w, hpre, hlen, hco⟩ := precompute_create points
  obtain ⟨v, hv⟩ := call_of_precomputed
    { weights := w, cp_points := points, precomputed_weights := true } rfl hlen x
  refine ⟨v, { weights := w, cp_points := points, precomputed_weights := true }, ?_, rfl, rfl,
    hlen, hco, hv, fun y => call_of_precomputed _ rfl hlen y⟩
  rw [← hv]
  unfold BarycentricState.call
  rw [hpre]
  have hpre1 : ({ weights := w, cp_points := points, precomputed_weights := true } :
      BarycentricState α).precompute =
      some { weights := w, cp_points := points, precomputed_weights := true } := by
    unfold BarycentricState.precompute
    rw [if_pos rfl]
  rw [hpre1]

/-- Instance of `barycentric_state` on the nodes of scenario A with query `3`: the weights
are `1/2, -1, 1/2`, the value is `10`, and a second call returns `10` again. -/
theorem barycentric_state_witness :
    (((CreateBarycentricInterpolator ([(0, 1), (1, 2), (2, 5)] : List (ℚ × ℚ))).call 3).map
        (fun r => (r.1, r.2.weights, r.2.precomputed_weights)) =
        some (10, [1 / 2, -1, 1 / 2], true) ∧
      ((BarycentricState.mk [1 / 2, -1, 1 / 2] ([(0, 1), (1, 2), (2, 5)] : List (ℚ × ℚ))
        true).call 3).map (fun r => (r.1, r.2.weights, r.2.precomputed_weights)) =
        some (10, [1 / 2, -1, 1 / 2], true)) ∧
    ∃ v s1, (CreateBarycentricInterpolator ([(0, 1), (1, 2), (2, 5)] : List (ℚ × ℚ))).call 3 =
        some (v, s1) ∧
      s1.precomputed_weights = true ∧ s1.cp_points = [(0, 1), (1, 2), (2, 5)] ∧
      s1.weights.length = ([(0, 1), (1, 2), (2, 5)] : List (ℚ × ℚ)).length ∧
      (∀ i, i < ([(0, 1), (1, 2), (2, 5)] : List (ℚ × ℚ)).length → coeff s1.weights i =
        1 / ∏ j ∈ (Finset.range ([(0, 1), (1, 2), (2, 5)] : List (ℚ × ℚ)).length).erase i,
          (nodeX ([(0, 1), (1, 2), (2, 5)] : List (ℚ × ℚ)) i -
            nodeX ([(0, 1), (1, 2), (2, 5)] : List (ℚ × ℚ)) j)) ∧
      s1.call 3 = some (v, s1) ∧
      ∀ y, ∃ v1, s1.call y = some (v1, s1) :=
  ⟨by decide!, barycentric_state ([(0, 1), (1, 2), (2, 5)] : List (ℚ × ℚ)) 3 (by decide!)⟩

end Barycentric
section OperandsByReference

/-- With a right operand that is another object, the by-reference model is
`__polynomial_mul`. -/
theorem mul_ref_other [Zero α] [Add α] [Mul α] [DecidableEq α] (a b : List α) :
    __polynomial_mul_ref a (RightOperand.other b) = __polynomial_mul a b :=
  rfl

/-- A loop `x = f(x)` over all coefficients, as long as `t` of them are done. -/
theorem map_loop [Zero α] (f : α → α) (a : List α) (t : Nat) (ht : t ≤ a.length) :
    ∃ r, (List.range t).foldlM (fun acc i => do
        let x ← acc[i]?
        pure (acc.set i (f x))) a = some r ∧
      r.length = a.length ∧
      ∀ k, coeff r k = if k < t then f (coeff a k) else coeff a k := by
  induction t with
  | zero => exact ⟨a, by simp, rfl, fun k => by simp⟩
  | succ t ih =>
    obtain ⟨r, h1, hlen, hco⟩ := ih (by omega)
    refine ⟨r.set t (f (coeff r t)), ?_, by simp [hlen], ?_⟩
    · rw [foldlM_range_succ, h1]
      simp [getElem?_of_lt_coeff (by omega : t < r.length)]
    · intro k
      rw [coeff_set _ _ _ _ (by omega)]
      by_cases hk : k = t
      · subst hk
        rw [if_pos rfl, if_pos (by omega), hco, if_neg (by omega)]
      · rw [if_neg hk, hco]
        by_cases hk2 : k < t
        · rw [if_pos hk2, if_pos (by omega)]
        · rw [if_neg hk2, if_neg (by omega)]

theorem map_loop_eq_map [Zero α] (f : α → α) (a : List α) :
    (List.range a.length).foldlM (fun acc i => do
        let x ← acc[i]?
        pure (acc.set i (f x))) a = some (a.map f) := by
  obtain ⟨r, h1, hlen, hco⟩ := map_loop f a a.length le_rfl
  rw [h1]
  congr 1
  apply List.ext_getElem?
  intro k
  by_cases hk : k < a.length
  · have h2 := hco k
    rw [if_pos hk] at h2
    rw [getElem?_of_lt_coeff (by omega : k < r.length), h2, List.getElem?_map,
      getElem?_of_lt_coeff hk]
    rfl
  · rw [List.getElem?_eq_none (by omega), List.getElem?_eq_none (by simp; omega)]

/-- With an independent scalar, the by-reference model of `P *= c` is
`__polynomial_mul_scalar`. -/
theorem mul_scalar_ref_value [Zero α] [Mul α] [DecidableEq α] (a : List α) (x : α) :
    __polynomial_mul_scalar_ref a (ScalarOperand.value x) =
      some (__polynomial_mul_scalar a x) := by
  unfold __polynomial_mul_scalar_ref __polynomial_mul_scalar
  simp only [ScalarOperand.read, Option.bind_eq_bind, Option.some_bind, Option.pure_def]
  split
  · rfl
  · exact map_loop_eq_map (fun y => y * x) a

/-- With an independent scalar, the by-reference model of `P /= c` is `div_scalar`. -/
theorem div_scalar_ref_value [Zero α] [Div α] (a : List α) (x : α) :
    div_scalar_ref a (ScalarOperand.value x) = some (div_scalar a x) := by
  unfold div_scalar_ref div_scalar
  simp only [ScalarOperand.read, Option.bind_eq_bind, Option.some_bind, Option.pure_def]
  exact map_loop_eq_map (fun y => y / x) a

end OperandsByReference

section AliasedOperands

/-- C7: for `p *= p` with `p = [1, 1]` (both parameters of `__polynomial_mul` bound to one
object) the in-place loop reads coefficients of `b` that it has already overwritten and
returns `[0, 2]`: its coefficient at index 0 is `0`, while the convolution sum over
`i + j = 0` is `1 * 1 = 1`. The same product through `operator*`, which works on a copy of
the left operand, is `[1, 2, 1]`. -/
theorem mul_aliased_not_convolution :
    __polynomial_mul_ref ([1, 1] : List ℤ) RightOperand.self = some [0, 2] ∧
      ∑ ij ∈ Finset.antidiagonal 0,
        coeff ([1, 1] : List ℤ) ij.1 * coeff ([1, 1] : List ℤ) ij.2 = 1 ∧
      coeff ([0, 2] : List ℤ) 0 ≠ ∑ ij ∈ Finset.antidiagonal 0,
        coeff ([1, 1] : List ℤ) ij.1 * coeff ([1, 1] : List ℤ) ij.2 ∧
      __polynomial_mul_ref ([1, 1] : List ℤ) (RightOperand.other [1, 1]) = some [1, 2, 1] := by
  have hsum : ∑ ij ∈ Finset.antidiagonal 0,
      coeff ([1, 1] : List ℤ) ij.1 * coeff ([1, 1] : List ℤ) ij.2 = 1 := by
    simp [coeff]
  refine ⟨by decide, hsum, ?_, by decide⟩
  rw [hsum]
  decide

/-- C8: for `p *= p` on the non-zero normalized `p = [1, 1]` over the rationals the result
`[0, 2]` has 2 coefficients, not `Degree p + Degree p + 1 = 3`; on `p = [5]` the result is
the empty sequence, not a sequence of `1` coefficient. -/
theorem mul_aliased_length :
    (Normalized ([1, 1] : List ℚ) ∧ Normalized ([5] : List ℚ)) ∧
      __polynomial_mul_ref ([1, 1] : List ℚ) RightOperand.self = some [0, 2] ∧
      ([0, 2] : List ℚ).length ≠ Degree ([1, 1] : List ℚ) + Degree ([1, 1] : List ℚ) + 1 ∧
      __polynomial_mul_ref ([5] : List ℚ) RightOperand.self = some [] ∧
      ([] : List ℚ).length ≠ Degree ([5] : List ℚ) + Degree ([5] : List ℚ) + 1 ∧
      __polynomial_mul_ref ([1, 1] : List ℚ) (RightOperand.other [1, 1]) = some [1, 2, 1] := by
  decide!

/-- C18: with the scalar bound to a coefficient of the polynomial being modified,
`p *= p.Coefficients[0]` on `[2, 3]` gives `[4, 12]` (index 1 holds `3 * 4`, not `3 * 2`)
and `p /= p.Coefficients[0]` on `[2, 4]` gives `[1, 4]` (index 1 holds `4 / 1`, not
`4 / 2`): the scalar changes under the loop. With the independent scalar `2` the results
are `[4, 6]` and `[1, 2]`. -/
theorem scalar_operand_aliased :
    (__polynomial_mul_scalar_ref ([2, 3] : List ℚ) (ScalarOperand.coefficient 0) =
        some [4, 12] ∧
      coeff ([4, 12] : List ℚ) 1 ≠ coeff ([2, 3] : List ℚ) 1 * coeff ([2, 3] : List ℚ) 0 ∧
      __polynomial_mul_scalar_ref ([2, 3] : List ℚ) (ScalarOperand.value 2) = some [4, 6]) ∧
    (div_scalar_ref ([2, 4] : List ℚ) (ScalarOperand.coefficient 0) = some [1, 4] ∧
      coeff ([1, 4] : List ℚ) 1 ≠ coeff ([2, 4] : List ℚ) 1 / coeff ([2, 4] : List ℚ) 0 ∧
      div_scalar_ref ([2, 4] : List ℚ) (ScalarOperand.value 2) = some [1, 2]) := by
  decide!

/-- C27: for `p *= p` on the non-zero normalized `p = [1, 1]` the product computed by
`__polynomial_mul` is `[0, 2]`, whose value at `x = 3` is `6`, while `p(3) * p(3)` is
`4 * 4 = 16`. -/
theorem evaluate_mul_aliased :
    Normalized ([1, 1] : List ℚ) ∧
      __polynomial_mul_ref ([1, 1] : List ℚ) RightOperand.self = some [0, 2] ∧
      Evaluate ([0, 2] : List ℚ) 3 = some 6 ∧
      Evaluate ([1, 1] : List ℚ) 3 = some 4 ∧
      (6 : ℚ) ≠ 4 * 4 := by
  decide!

end AliasedOperands
end JeanMathPhy
